import Mathlib

set_option maxHeartbeats 1000000
set_option linter.unusedVariables false

/-!
Verification of the universal HTTP/WebSocket proxy in src/index.js.

The embedding models strings as lists of characters (Lean String is used
only as a literal notation via chars).  The WHATWG URL behaviour used by
the program through Node's URL class is modelled by an executable fragment
(parseAbs / resolveRel / resolveURL below).  Scope of the URL model, with
deviations from full WHATWG noted:
* special schemes are http, https, ws, wss, ftp; for them a nonempty host
  is required and extra leading slashes after the colon are forgiven
  (new URL, e.g., accepts "http:foo" as "http://foo/");
* non-special schemes (e.g. mailto) parse with an opaque path and an
  empty host, as in WHATWG;
* no percent-encoding normalization of path/query, no dot-segment
  removal, no backslash-to-slash conversion, no userinfo or IPv6 host
  forms, no default-port elision, and no tab/newline stripping: the model
  keeps those characters verbatim;
* percent-decoding of bytes >= 0x80 maps the byte directly to the code
  point (the theorems that need decoding are stated for ASCII data).
These omissions only narrow the class of inputs the theorems quantify
over; on that class the model follows the JS engine.
-/

abbrev Str := List Char

def chars (s : String) : Str := s.data

def isAlphaC (c : Char) : Bool :=
  decide ((65 ≤ c.toNat ∧ c.toNat ≤ 90) ∨ (97 ≤ c.toNat ∧ c.toNat ≤ 122))

def isDigitC (c : Char) : Bool := decide (48 ≤ c.toNat ∧ c.toNat ≤ 57)

def isSchemeC (c : Char) : Bool := isAlphaC c || isDigitC c || c == '+' || c == '-' || c == '.'

def lowerC (c : Char) : Char :=
  if 65 ≤ c.toNat ∧ c.toNat ≤ 90 then Char.ofNat (c.toNat + 32) else c

def lowerS (s : Str) : Str := s.map lowerC

/-- URL value as exposed by Node's URL class: scheme (lowercased, no colon),
whether an authority is present, host, optional port (digits, kept verbatim),
pathname, search (empty or starting with a question mark) and hash (empty or
starting with a hash mark). -/
structure UrlM where
  scheme : Str
  auth : Bool
  host : Str
  port : Option Str
  pathname : Str
  search : Str
  hash : Str
deriving DecidableEq, Repr

def isSpecial (sc : Str) : Bool :=
  sc == chars "http" || sc == chars "https" || sc == chars "ws" || sc == chars "wss" ||
  sc == chars "ftp"

def splitScheme (s : Str) : Option (Str × Str) :=
  match s with
  | [] => none
  | c :: _ =>
    if isAlphaC c then
      match s.dropWhile isSchemeC with
      | d :: r => if d = ':' then some (lowerS (s.takeWhile isSchemeC), r) else none
      | [] => none
    else none

def parseHostPort (a : Str) : Option (Str × Option Str) :=
  let h := a.takeWhile (fun c => !(c == ':'))
  match a.dropWhile (fun c => !(c == ':')) with
  | [] => some (h, none)
  | _ :: p =>
    if p = [] then some (h, none)
    else if p.all isDigitC then some (h, some p) else none

/-- split a remainder starting at the query/fragment delimiter into
(search, hash). -/
def qfOf (r : Str) : Str × Str :=
  match r with
  | [] => ([], [])
  | c :: _ =>
    if c = '?' then (r.takeWhile (fun d => !(d == '#')), r.dropWhile (fun d => !(d == '#')))
    else ([], r)

def splitPathQF (s : Str) : Str × Str × Str :=
  (s.takeWhile (fun c => !(c == '?' || c == '#')),
    qfOf (s.dropWhile (fun c => !(c == '?' || c == '#'))))

def notDelimC (c : Char) : Bool := !(c == '/' || c == '?' || c == '#')

def pathOrSlash (p : Str) : Str := if p = [] then chars "/" else p

/-- authority-and-path tail of a special-scheme URL: leading slashes after
the colon are forgiven, then host[:port] up to the first delimiter, then
path, query, fragment; the host must be nonempty and is lowercased; an empty
path serializes as "/". -/
def specialTail (sc rest : Str) : Option UrlM :=
  match parseHostPort ((rest.dropWhile (fun c => c == '/')).takeWhile notDelimC) with
  | none => none
  | some (h, p) =>
    if h = [] then none
    else
      some ⟨sc, true, lowerS h, p,
        pathOrSlash (splitPathQF ((rest.dropWhile (fun c => c == '/')).dropWhile notDelimC)).1,
        (splitPathQF ((rest.dropWhile (fun c => c == '/')).dropWhile notDelimC)).2.1,
        (splitPathQF ((rest.dropWhile (fun c => c == '/')).dropWhile notDelimC)).2.2⟩

/-- authority-and-path tail of a non-special URL written with "//": the host
may be empty and is kept verbatim. -/
def nonspecialAuthTail (sc r : Str) : Option UrlM :=
  match parseHostPort (r.takeWhile notDelimC) with
  | none => none
  | some (h, p) =>
    some ⟨sc, true, h, p, (splitPathQF (r.dropWhile notDelimC)).1,
      (splitPathQF (r.dropWhile notDelimC)).2.1, (splitPathQF (r.dropWhile notDelimC)).2.2⟩

/-- opaque-path form of a non-special URL (e.g. mailto:...). -/
def opaqueTail (sc rest : Str) : UrlM :=
  ⟨sc, false, [], none, (splitPathQF rest).1, (splitPathQF rest).2.1, (splitPathQF rest).2.2⟩

/-- Parse of an absolute URL string (what new URL(s) with no base accepts),
on the model fragment described in the header comment. -/
def parseAbs (s : Str) : Option UrlM :=
  match splitScheme s with
  | none => none
  | some (sc, rest) =>
    if isSpecial sc then specialTail sc rest
    else
      match rest with
      | c1 :: c2 :: r =>
        if c1 = '/' ∧ c2 = '/' then nonspecialAuthTail sc r
        else some (opaqueTail sc rest)
      | _ => some (opaqueTail sc rest)

def portStr (port : Option Str) : Str :=
  match port with
  | some p => ':' :: p
  | none => []

def UrlM.href (u : UrlM) : Str :=
  u.scheme ++ ':' ::
    ((if u.auth then chars "//" ++ u.host ++ portStr u.port else []) ++
      u.pathname ++ u.search ++ u.hash)

def UrlM.origin (u : UrlM) : Str :=
  if isSpecial u.scheme then u.scheme ++ chars "://" ++ u.host ++ portStr u.port
  else chars "null"

def canonScheme (sc : Str) : Bool :=
  match sc with
  | [] => false
  | c :: _ => isAlphaC c && sc.all isSchemeC && (lowerS sc == sc)

def hostOkC (c : Char) : Bool := !(c == '/' || c == '?' || c == '#' || c == ':')

def isTwoSlash (s : Str) : Bool :=
  match s with
  | a :: b :: _ => a == '/' && b == '/'
  | _ => false

def startsSlash (s : Str) : Bool :=
  match s with
  | c :: _ => c == '/'
  | [] => false

/-- Canonical-form invariant of UrlM values: exactly the shapes produced by
parseAbs and resolveRel, under which href parses back to the same value. -/
def canonUrl (u : UrlM) : Prop :=
  canonScheme u.scheme = true ∧
  u.pathname.all (fun c => !(c == '?' || c == '#')) = true ∧
  (u.search = [] ∨ ∃ r, u.search = '?' :: r ∧ r.all (fun d => !(d == '#')) = true) ∧
  (u.hash = [] ∨ ∃ r, u.hash = '#' :: r) ∧
  (if u.auth then
      u.host.all hostOkC = true ∧
      (u.port = none ∨ ∃ p, u.port = some p ∧ p ≠ [] ∧ p.all isDigitC = true) ∧
      (u.pathname = [] ∨ startsSlash u.pathname = true)
    else u.host = [] ∧ u.port = none ∧ isTwoSlash u.pathname = false) ∧
  (isSpecial u.scheme = true →
      u.auth = true ∧ u.host ≠ [] ∧ lowerS u.host = u.host ∧ u.pathname ≠ [] ∧
      startsSlash u.pathname = true)

def dirOf (p : Str) : Str :=
  let r := p.reverse.dropWhile (fun c => !(c == '/'))
  if r = [] then chars "/" else r.reverse

/-- Resolution of a relative reference against a parsed base, mirroring the
WHATWG relative states on the model fragment (no dot-segment removal). -/
def resolveRel (loc : Str) (b : UrlM) : Option UrlM :=
  if b.auth then
    match loc with
    | [] => some { b with hash := [] }
    | c :: _ =>
      if c = '/' then
        if isTwoSlash loc then parseAbs (b.scheme ++ ':' :: loc)
        else
          let pqf := splitPathQF loc
          some { b with pathname := pqf.1, search := pqf.2.1, hash := pqf.2.2 }
      else if c = '?' then
        some { b with search := loc.takeWhile (fun d => !(d == '#')),
                      hash := loc.dropWhile (fun d => !(d == '#')) }
      else if c = '#' then
        some { b with hash := loc }
      else
        let pqf := splitPathQF loc
        some { b with pathname := dirOf b.pathname ++ pqf.1, search := pqf.2.1, hash := pqf.2.2 }
  else
    match loc with
    | c :: _ => if c = '#' then some { b with hash := loc } else none
    | [] => none

/-- new URL(loc, base): the base (when given) is parsed first and its failure
is failure of the whole construction, as in the WHATWG constructor. -/
def resolveURL (loc : Str) (base : Option Str) : Option UrlM :=
  match base with
  | none => parseAbs loc
  | some b =>
    match parseAbs b with
    | none => none
    | some bu =>
      match parseAbs loc with
      | some u => some u
      | none => resolveRel loc bu

def hexVal (c : Char) : Option Nat :=
  if 48 ≤ c.toNat ∧ c.toNat ≤ 57 then some (c.toNat - 48)
  else if 65 ≤ c.toNat ∧ c.toNat ≤ 70 then some (c.toNat - 55)
  else if 97 ≤ c.toNat ∧ c.toNat ≤ 102 then some (c.toNat - 87)
  else none

def hexDigC (n : Nat) : Char := if n < 10 then Char.ofNat (48 + n) else Char.ofNat (55 + n)

def isUnresC (c : Char) : Bool :=
  isAlphaC c || isDigitC c || c == '-' || c == '_' || c == '.' || c == '!' || c == '~' ||
  c == '*' || c == Char.ofNat 39 || c == '(' || c == ')'

/-- JS encodeURIComponent on the ASCII plane (code points above 127 are kept
verbatim; the theorems using this are stated for ASCII strings). -/
def encodeURIComponent : Str → Str
  | [] => []
  | c :: rest =>
    if isUnresC c then c :: encodeURIComponent rest
    else if c.toNat < 128 then
      '%' :: hexDigC (c.toNat / 16) :: hexDigC (c.toNat % 16) :: encodeURIComponent rest
    else c :: encodeURIComponent rest

/-- Percent-decoding as done by URLSearchParams on a query component:
plus signs become spaces, valid %XX pairs become the byte, anything else is
kept verbatim. -/
def pctDecodeGo : Nat → Str → Str
  | _, [] => []
  | 0, s => s
  | fuel + 1, c :: rest =>
    if c = '%' then
      match rest with
      | h1 :: h2 :: r2 =>
        match hexVal h1, hexVal h2 with
        | some a, some b => Char.ofNat (16 * a + b) :: pctDecodeGo fuel r2
        | _, _ => '%' :: pctDecodeGo fuel rest
      | _ => '%' :: pctDecodeGo fuel rest
    else if c = '+' then ' ' :: pctDecodeGo fuel rest
    else c :: pctDecodeGo fuel rest

def pctDecodePlus (s : Str) : Str := pctDecodeGo s.length s

/-- Query component of a request-target string: everything after the first
question mark, stopping at the first hash mark. -/
def queryOf (s : Str) : Str :=
  ((s.takeWhile (fun c => !(c == '#'))).dropWhile (fun c => !(c == '?'))).drop 1

/-- URLSearchParams.get on the query of fullUrl: first pair whose decoded name
matches, returning its decoded value ("" when the pair has no equals sign). -/
def getQueryParam (name : Str) (fullUrl : Str) : Option Str :=
  let q := queryOf fullUrl
  match q.splitOn '&' |>.find? (fun p => pctDecodePlus (p.takeWhile (fun c => !(c == '='))) == name) with
  | some p => some (pctDecodePlus ((p.dropWhile (fun c => !(c == '='))).drop 1))
  | none => none

/-- parseTargetFromReq from src/index.js: read the url query parameter, treat
absent or empty as failure, then parse it as an absolute URL.  (The base
argument "http://proxy.local" of the source only anchors relative request
paths and does not influence the extracted query.) -/
def parseTargetFromReq (fullUrl : Str) : Option UrlM :=
  match getQueryParam (chars "url") fullUrl with
  | none => none
  | some raw => if raw = [] then none else parseAbs raw

inductive HVal where
  | one (v : Str)
  | many (vs : List Str)
deriving DecidableEq, Repr

abbrev Headers := List (Str × HVal)

def hget (k : Str) (h : Headers) : Option HVal :=
  (h.find? (fun p => p.1 == k)).map (fun p => p.2)

def hdel (k : Str) (h : Headers) : Headers := h.filter (fun p => !(p.1 == k))

def hset (k : Str) (v : HVal) (h : Headers) : Headers := (k, v) :: hdel k h

def isSpaceC (c : Char) : Bool :=
  c == ' ' || c == '\t' || c == '\n' || c == '\r' ||
  decide (c.toNat = 11) || decide (c.toNat = 12)

/-- Match of the regex /;\s*Domain=[^;]*/i at the start of s: when it fires,
the remainder of the string after the matched span. -/
def domAt (s : Str) : Option Str :=
  match s with
  | [] => none
  | c :: rest =>
    if c = ';' then
      let t := rest.dropWhile isSpaceC
      if lowerS (t.take 7) = chars "domain=" then
        some ((t.drop 7).dropWhile (fun d => !(d == ';')))
      else none
    else none

/-- c.replace(/;\s*Domain=[^;]*\/i, "; Domain=" + host): replace the leftmost
match (String.replace with a non-global regex replaces only the first one). -/
def replaceDomainAux (host : Str) : Str → Str
  | [] => []
  | c :: rest =>
    match domAt (c :: rest) with
    | some suffix => chars "; Domain=" ++ host ++ suffix
    | none => c :: replaceDomainAux host rest

def ssAt (s : Str) : Bool :=
  match s with
  | [] => false
  | c :: rest => c == ';' && (lowerS ((rest.dropWhile isSpaceC).take 9) == chars "samesite=")

def secAt (s : Str) : Bool :=
  match s with
  | [] => false
  | c :: rest => c == ';' && (lowerS ((rest.dropWhile isSpaceC).take 6) == chars "secure")

def scanAny (p : Str → Bool) : Str → Bool
  | [] => false
  | c :: rest => p (c :: rest) || scanAny p rest

/-- /;\s*SameSite=/i.test c -/
def testSameSite (s : Str) : Bool := scanAny ssAt s

/-- /;\s*Secure/i.test c -/
def testSecure (s : Str) : Bool := scanAny secAt s

/-- append "; SameSite=None" when no SameSite attribute is found. -/
def sameSiteStep (c : Str) : Str :=
  if testSameSite c then c else c ++ chars "; SameSite=None"

/-- append "; Secure" when no Secure token is found. -/
def secureStep (c : Str) : Str :=
  if testSecure c then c else c ++ chars "; Secure"

/-- Per-cookie rewrite of the proxyRes hook in src/index.js: domain replace,
then the two conditional appends, in source order. -/
def rewriteCookie (host : Str) (c : Str) : Str :=
  secureStep (sameSiteStep (replaceDomainAux host c))

inductive CookieAttr where
  | path (v : Str)
  | expires (v : Str)
  | maxAge (v : Str)
  | domain (v : Str)
  | secure
  | httpOnly
  | sameSite (v : Str)
deriving DecidableEq, Repr

def attrStr : CookieAttr → Str
  | .path v => chars "; Path=" ++ v
  | .expires v => chars "; Expires=" ++ v
  | .maxAge v => chars "; Max-Age=" ++ v
  | .domain v => chars "; Domain=" ++ v
  | .secure => chars "; Secure"
  | .httpOnly => chars "; HttpOnly"
  | .sameSite v => chars "; SameSite=" ++ v

def serializeAttrs (l : List CookieAttr) : Str := (l.map attrStr).flatten

/-- A well-formed Set-Cookie string: cookie name, value, and a list of
attributes separated by "; ". -/
def cookieStr (name value : Str) (l : List CookieAttr) : Str :=
  name ++ '=' :: value ++ serializeAttrs l

def isDomainA : CookieAttr → Bool
  | .domain _ => true
  | _ => false

def isSSA : CookieAttr → Bool
  | .sameSite _ => true
  | _ => false

def isSecA : CookieAttr → Bool
  | .secure => true
  | _ => false

def isPathA : CookieAttr → Bool
  | .path _ => true
  | _ => false

def isExpiresA : CookieAttr → Bool
  | .expires _ => true
  | _ => false

def mapDomains (host : Str) (l : List CookieAttr) : List CookieAttr :=
  l.map (fun a => match a with | .domain _ => .domain host | x => x)

def specSameSite (l : List CookieAttr) : List CookieAttr :=
  if l.any isSSA then l else l ++ [.sameSite (chars "None")]

def specSecure (l : List CookieAttr) : List CookieAttr :=
  if l.any isSecA then l else l ++ [.secure]

/-- The Set-Cookie transformation as the spec states it, at the level of
parsed attributes: rewrite Domain to the proxy host, then append
SameSite=None and Secure when absent. -/
def specCookieRewrite (host : Str) (l : List CookieAttr) : List CookieAttr :=
  specSecure (specSameSite (mapDomains host l))

def noSemi (s : Str) : Bool := s.all (fun c => !(c == ';'))

def attrVal : CookieAttr → Str
  | .path v => v
  | .expires v => v
  | .maxAge v => v
  | .domain v => v
  | .secure => []
  | .httpOnly => []
  | .sameSite v => v

def wfAttr (a : CookieAttr) : Bool := noSemi (attrVal a)

/-- The fixed serialized key text of an attribute, as it appears after the
"; " separator in attrStr. -/
def attrName : CookieAttr → Str
  | .path _ => chars "Path="
  | .expires _ => chars "Expires="
  | .maxAge _ => chars "Max-Age="
  | .domain _ => chars "Domain="
  | .secure => chars "Secure"
  | .httpOnly => chars "HttpOnly"
  | .sameSite _ => chars "SameSite="


/-- Location rewrite of the proxyRes hook: resolve against the stashed
upstream origin; on success replace by the /proxy link encoding the absolute
URL, on failure leave the header untouched. -/
def rewriteLocation (base : Option Str) (loc : Str) : Str :=
  match resolveURL loc base with
  | some abs => chars "/proxy?url=" ++ encodeURIComponent abs.href
  | none => loc

/-- delete of the three CSP/frame-protection headers, in source order. -/
def cspStrip (h : Headers) : Headers :=
  hdel (chars "x-frame-options")
    (hdel (chars "content-security-policy-report-only")
      (hdel (chars "content-security-policy") h))

/-- JS truthiness of the stashed req._targetOrigin: an empty string acts as
an absent base. -/
def truthyOpt (o : Option Str) : Option Str :=
  match o with
  | some s => if s = [] then none else some s
  | none => none

/-- The Location step of the proxyRes hook: rewrite a present, nonempty
(JS-truthy) Location header value. -/
def locationStep (base : Option Str) (h : Headers) : Headers :=
  match hget (chars "location") h with
  | some (HVal.one loc) =>
    if loc = [] then h
    else hset (chars "location") (HVal.one (rewriteLocation base loc)) h
  | _ => h

/-- The Set-Cookie step of the proxyRes hook: rewrite each cookie string of a
present set-cookie array. -/
def cookieStep (hostHeader : Str) (h : Headers) : Headers :=
  match hget (chars "set-cookie") h with
  | some (HVal.many cs) =>
    hset (chars "set-cookie") (HVal.many (cs.map (rewriteCookie hostHeader))) h
  | _ => h

/-- The proxyRes hook of src/index.js on the upstream response headers:
strip the three frame/CSP protection headers, rewrite Location, rewrite each
Set-Cookie string.  targetOrigin is req._targetOrigin, hostHeader is
req.headers.host.  The selfOrigin/_proto values computed by the source are
dead in this hook and are not modelled. -/
def processProxyRes (targetOrigin : Option Str) (hostHeader : Str) (h : Headers) : Headers :=
  cookieStep hostHeader (locationStep (truthyOpt targetOrigin) (cspStrip h))

def defaultUA : Str :=
  chars "Mozilla/5.0 (Windows NT 10.0; Win64; x64) AppleWebKit/537.36 (KHTML, like Gecko) Chrome Safari"

/-- The proxyReq hook of src/index.js: when an upstream origin was stashed
(JS truthiness: empty string counts as absent), force Origin and Referer and
inject a default User-Agent when the request carries none (JS truthiness: an
empty User-Agent value also triggers injection).  The headers handed to the
upstream start as the client's headers, which the proxy library copies onto
the outbound request before this hook runs. -/
def uaStep (h : Headers) : Headers :=
  match hget (chars "user-agent") h with
  | some (HVal.one v) =>
    if v = [] then hset (chars "user-agent") (HVal.one defaultUA) h else h
  | some (HVal.many _) => h
  | none => hset (chars "user-agent") (HVal.one defaultUA) h

def processProxyReq (targetOrigin : Option Str) (reqHeaders : Headers) : Headers :=
  match targetOrigin with
  | none => reqHeaders
  | some o =>
    if o = [] then reqHeaders
    else
      uaStep (hset (chars "referer") (HVal.one (o ++ chars "/"))
        (hset (chars "origin") (HVal.one o) reqHeaders))

/-- allowedHost from src/index.js, with the ALLOWLIST deployment constant as
a parameter (none models the null allowlist). -/
def allowedHost (al : Option (List Str)) (hostname : Str) : Bool :=
  match al with
  | none => true
  | some l => l.any (fun h => hostname == h || List.isSuffixOf ('.' :: h) hostname)

structure CookieOpts where
  httpOnly : Bool
  sameSite : Str
  maxAgeMs : Nat
deriving DecidableEq, Repr

structure SetCookieCall where
  name : Str
  value : Str
  opts : CookieOpts
deriving DecidableEq, Repr

/-- Outcome of the /proxy route handler: an immediate response (status and
body, no cookie and no upstream contact), or a dispatch to the upstream via
proxy.web carrying the cookies set beforehand, the rewritten request path,
the target origin and the stashed protocol. -/
inductive ProxyOutcome where
  | respond (status : Nat) (body : Str)
  | dispatch (cookies : List SetCookieCall) (upstreamPath : Str) (targetOrigin : Str) (proto : Str)
deriving DecidableEq, Repr

def ProxyOutcome.isRespond : ProxyOutcome → Bool
  | .respond _ _ => true
  | _ => false

def computeProto (xfProto : Option Str) (reqProtocol : Option Str) : Str :=
  let xf := match xfProto with | some s => s | none => []
  let first := xf.takeWhile (fun c => !(c == ','))
  if first = [] then
    match reqProtocol with
    | some p => if p = [] then chars "https" else p
    | none => chars "https"
  else first

def lastTargetCookie (t : UrlM) : SetCookieCall :=
  ⟨chars "last_target", t.origin, ⟨false, chars "Lax", 1209600000⟩⟩

/-- The app.use("/proxy") handler of src/index.js. -/
def proxyHandler (al : Option (List Str)) (reqUrl : Str) (xfProto reqProtocol : Option Str) :
    ProxyOutcome :=
  match parseTargetFromReq reqUrl with
  | none => .respond 400 (chars "Missing or invalid ?url=")
  | some t =>
    if !(allowedHost al t.host) then .respond 403 (chars "Target host not allowed.")
    else
      .dispatch [lastTargetCookie t] (t.pathname ++ t.search ++ t.hash) t.origin
        (computeProto xfProto reqProtocol)

/-- Outcome of the upgrade handler: destroy the client socket (no HTTP
response of any kind), or relay the WebSocket handshake with the rewritten
path and the target origin. -/
inductive WsOutcome where
  | destroy
  | ws (upstreamPath : Str) (targetOrigin : Str)
deriving DecidableEq, Repr

/-- The server.on("upgrade") handler of src/index.js. -/
def upgradeHandler (al : Option (List Str)) (reqUrl : Str) : WsOutcome :=
  match parseTargetFromReq reqUrl with
  | none => .destroy
  | some t =>
    if !(allowedHost al t.host) then .destroy
    else .ws (t.pathname ++ t.search ++ t.hash) t.origin

/-- Response-stream state as seen by the proxy error handler. -/
structure ResState where
  headersSent : Bool
  statusWritten : Option Nat
  headers : Headers
  chunks : List Str
  ended : Bool
deriving DecidableEq, Repr

/-- The proxy.on("error") handler of src/index.js: writeHead(502) only when
headers are not yet sent, then res.end("Proxy error") unconditionally.  The
error argument reaches only the server-side log, never the response. -/
def errorHandler (err : Str) (st : ResState) : ResState :=
  let _ := err
  let st1 :=
    if st.headersSent then st
    else { st with headersSent := true, statusWritten := some 502,
                   headers := hset (chars "content-type") (HVal.one (chars "text/plain")) st.headers }
  { st1 with chunks := st1.chunks ++ [chars "Proxy error"], ended := true }

def strBytes (s : Str) : List Nat := s.map Char.toNat

structure UpstreamResponse where
  status : Nat
  headers : Headers
  body : List Nat
deriving DecidableEq, Repr

structure ClientResponse where
  status : Nat
  headers : Headers
  cookies : List SetCookieCall
  body : List Nat
deriving DecidableEq, Repr

/-- Modelled from the spec: the end-to-end /proxy exchange.  The streaming
inside the http-proxy library is not in src/, so, per the spec, proxy.web
relays the upstream status and body bytes unmodified after the proxyRes hook
has rewritten the headers; when dialing fails before any upstream bytes
arrive, the registered error handler answers 502 "Proxy error" while the
cookies already set by the route handler stay on the response. -/
def runProxy (al : Option (List Str)) (reqUrl : Str) (xfProto reqProtocol : Option Str)
    (hostHeader : Str) (upstream : Option UpstreamResponse) : ClientResponse :=
  match proxyHandler al reqUrl xfProto reqProtocol with
  | .respond s b => ⟨s, [], [], strBytes b⟩
  | .dispatch ck _path o _proto =>
    match upstream with
    | none =>
      ⟨502, [(chars "content-type", HVal.one (chars "text/plain"))], ck,
        strBytes (chars "Proxy error")⟩
    | some r => ⟨r.status, processProxyRes (some o) hostHeader r.headers, ck, r.body⟩

/-! Basic lemmas about the header map. -/

theorem hget_cons_self (k : Str) (v : HVal) (t : Headers) : hget k ((k, v) :: t) = some v := by
  unfold hget
  rw [List.find?_cons_of_pos _ (by simp)]
  rfl

theorem hget_cons_ne (k : Str) (p : Str × HVal) (t : Headers) (hk : p.1 ≠ k) :
    hget k (p :: t) = hget k t := by
  unfold hget
  rw [List.find?_cons_of_neg _ (by simp [hk])]

theorem hdel_cons_del (k2 : Str) (p : Str × HVal) (t : Headers) (hp : p.1 = k2) :
    hdel k2 (p :: t) = hdel k2 t := by
  simp [hdel, List.filter_cons, hp]

theorem hdel_cons_keep (k2 : Str) (p : Str × HVal) (t : Headers) (hp : p.1 ≠ k2) :
    hdel k2 (p :: t) = p :: hdel k2 t := by
  simp [hdel, List.filter_cons, hp]

theorem hget_hdel_ne (k k2 : Str) (h : Headers) (hne : k ≠ k2) :
    hget k (hdel k2 h) = hget k h := by
  induction h with
  | nil => rfl
  | cons p t ih =>
    by_cases hp : p.1 = k2
    · have hk : p.1 ≠ k := fun hh => hne (by rw [← hh, hp])
      rw [hdel_cons_del _ _ _ hp, ih, hget_cons_ne _ _ _ hk]
    · by_cases hk : p.1 = k
      · rw [hdel_cons_keep _ _ _ hp]
        cases p with
        | mk a b =>
          simp only at hk
          rw [hk, hget_cons_self, hget_cons_self]
      · rw [hdel_cons_keep _ _ _ hp, hget_cons_ne _ _ _ hk, hget_cons_ne _ _ _ hk, ih]

theorem hget_hdel_self (k : Str) (h : Headers) : hget k (hdel k h) = none := by
  induction h with
  | nil => rfl
  | cons p t ih =>
    by_cases hp : p.1 = k
    · rw [hdel_cons_del _ _ _ hp]; exact ih
    · rw [hdel_cons_keep _ _ _ hp, hget_cons_ne _ _ _ hp]; exact ih

theorem hget_hset_self (k : Str) (v : HVal) (h : Headers) : hget k (hset k v h) = some v := by
  rw [hset, hget_cons_self]

theorem hget_hset_ne (k k2 : Str) (v : HVal) (h : Headers) (hne : k ≠ k2) :
    hget k (hset k2 v h) = hget k h := by
  have hfst : ((k2, v) : Str × HVal).1 ≠ k := Ne.symm hne
  rw [hset, hget_cons_ne _ _ _ hfst, hget_hdel_ne _ _ _ hne]

theorem hget_locationStep_ne (kk : Str) (base : Option Str) (h : Headers)
    (hne : kk ≠ chars "location") : hget kk (locationStep base h) = hget kk h := by
  unfold locationStep
  split
  · split
    · rfl
    · rw [hget_hset_ne _ _ _ _ hne]
  · rfl

theorem hget_cookieStep_ne (kk : Str) (hostH : Str) (h : Headers)
    (hne : kk ≠ chars "set-cookie") : hget kk (cookieStep hostH h) = hget kk h := by
  unfold cookieStep
  split
  · rw [hget_hset_ne _ _ _ _ hne]
  · rfl

/-- C3: for every upstream response, none of Content-Security-Policy,
Content-Security-Policy-Report-Only, X-Frame-Options survives into the
client-visible headers: the inbound rewrite deletes all three whatever their
values, neither the Location nor the Set-Cookie step reintroduces them, and
no response the proxy produces on any other path carries them either. -/
theorem c3_security_headers_stripped (tOr : Option Str) (hostH : Str) (h : Headers)
    (al : Option (List Str)) (reqUrl : Str) (xf rp : Option Str)
    (up : Option UpstreamResponse) :
    hget (chars "content-security-policy") (processProxyRes tOr hostH h) = none ∧
    hget (chars "content-security-policy-report-only") (processProxyRes tOr hostH h) = none ∧
    hget (chars "x-frame-options") (processProxyRes tOr hostH h) = none ∧
    hget (chars "content-security-policy") (runProxy al reqUrl xf rp hostH up).headers = none ∧
    hget (chars "content-security-policy-report-only")
      (runProxy al reqUrl xf rp hostH up).headers = none ∧
    hget (chars "x-frame-options") (runProxy al reqUrl xf rp hostH up).headers = none := by
  have base : ∀ (to2 : Option Str) (h2 : Headers),
      hget (chars "content-security-policy") (processProxyRes to2 hostH h2) = none ∧
      hget (chars "content-security-policy-report-only") (processProxyRes to2 hostH h2) = none ∧
      hget (chars "x-frame-options") (processProxyRes to2 hostH h2) = none := by
    intro to2 h2
    unfold processProxyRes cspStrip
    refine ⟨?_, ?_, ?_⟩ <;>
      rw [hget_cookieStep_ne _ _ _ (by decide), hget_locationStep_ne _ _ _ (by decide)]
    · rw [hget_hdel_ne _ _ _ (by decide), hget_hdel_ne _ _ _ (by decide), hget_hdel_self]
    · rw [hget_hdel_ne _ _ _ (by decide), hget_hdel_self]
    · rw [hget_hdel_self]
  refine ⟨(base tOr h).1, (base tOr h).2.1, (base tOr h).2.2, ?_, ?_, ?_⟩ <;>
    · unfold runProxy
      split
      · rfl
      · split
        · rfl
        · first
          | exact (base _ _).1
          | exact (base _ _).2.1
          | exact (base _ _).2.2

/-- C5: with an allowlist configured, a resolved hostname is accepted iff it
equals an allowed entry or extends one by a dot-separated prefix; with
allowlist containing exactly example.com, url=https://example.com/x resolves
and dispatches, while url=https://evil.example.com.attacker.net/x is refused
with a 403 response. -/
theorem c5_allowlist_semantics :
    (∀ (l : List Str) (hn : Str),
      allowedHost (some l) hn = true ↔ ∃ e ∈ l, hn = e ∨ ∃ pre, hn = pre ++ '.' :: e) ∧
    (parseAbs (chars "https://example.com/x")).map UrlM.host = some (chars "example.com") ∧
    allowedHost (some [chars "example.com"]) (chars "example.com") = true ∧
    proxyHandler (some [chars "example.com"]) (chars "/?url=https://example.com/x") none none =
      ProxyOutcome.dispatch
        [⟨chars "last_target", chars "https://example.com", ⟨false, chars "Lax", 1209600000⟩⟩]
        (chars "/x") (chars "https://example.com") (chars "https") ∧
    allowedHost (some [chars "example.com"]) (chars "evil.example.com.attacker.net") = false ∧
    proxyHandler (some [chars "example.com"])
        (chars "/?url=https://evil.example.com.attacker.net/x") none none =
      ProxyOutcome.respond 403 (chars "Target host not allowed.") := by
  refine ⟨?_, by decide, by decide, by decide, by decide, by decide⟩
  intro l hn
  unfold allowedHost
  rw [List.any_eq_true]
  constructor
  · rintro ⟨e, he, hcond⟩
    simp only [Bool.or_eq_true, beq_iff_eq] at hcond
    refine ⟨e, he, ?_⟩
    rcases hcond with h1 | h1
    · exact Or.inl h1
    · rw [List.isSuffixOf_iff_suffix] at h1
      rcases h1 with ⟨t, ht⟩
      exact Or.inr ⟨t, ht.symm⟩
  · rintro ⟨e, he, h1 | ⟨pre, hpre⟩⟩
    · exact ⟨e, he, by simp [h1]⟩
    · refine ⟨e, he, ?_⟩
      simp only [Bool.or_eq_true, beq_iff_eq]
      exact Or.inr (by rw [List.isSuffixOf_iff_suffix]; exact ⟨pre, hpre.symm⟩)

theorem uaStep_get (h : Headers) :
    hget (chars "user-agent") (uaStep h) =
      some (match hget (chars "user-agent") h with
        | some (HVal.one v) => if v = [] then HVal.one defaultUA else HVal.one v
        | some (HVal.many vs) => HVal.many vs
        | none => HVal.one defaultUA) := by
  unfold uaStep
  cases hua : hget (chars "user-agent") h with
  | none => simp [hget_hset_self]
  | some hv =>
    cases hv with
    | one v =>
      by_cases hv0 : v = [] <;> simp [hv0, hget_hset_self, hua]
    | many vs => simp [hua]

theorem uaStep_get_ne (kk : Str) (h : Headers) (hne : kk ≠ chars "user-agent") :
    hget kk (uaStep h) = hget kk h := by
  unfold uaStep
  split
  · split
    · rw [hget_hset_ne _ _ _ _ hne]
    · rfl
  · rfl
  · rw [hget_hset_ne _ _ _ _ hne]

/-- C6 counterexample: on the outbound request the Referer header is set to
the target origin followed by a slash, not to the origin string itself, so
Referer does not equal the resolved target's origin as the claim states. -/
theorem c6_counterexample :
    ¬ (hget (chars "referer") (processProxyReq (some (chars "https://example.com")) []) =
        some (HVal.one (chars "https://example.com"))) := by decide

/-- C6 amended: when an upstream origin is stashed (nonempty), the outbound
rewrite sets Origin to the target's origin and Referer to the target's origin
followed by a slash, overriding client-sent values; a default User-Agent is
injected exactly when the client supplied none or an empty one, and a
nonempty client User-Agent is kept. -/
theorem c6_outbound_headers_amended (o : Str) (h : Headers) (ho : o ≠ []) :
    hget (chars "origin") (processProxyReq (some o) h) = some (HVal.one o) ∧
    hget (chars "referer") (processProxyReq (some o) h) = some (HVal.one (o ++ chars "/")) ∧
    hget (chars "user-agent") (processProxyReq (some o) h) =
      some (match hget (chars "user-agent") h with
        | some (HVal.one v) => if v = [] then HVal.one defaultUA else HVal.one v
        | some (HVal.many vs) => HVal.many vs
        | none => HVal.one defaultUA) := by
  have hred : processProxyReq (some o) h =
      uaStep (hset (chars "referer") (HVal.one (o ++ chars "/"))
        (hset (chars "origin") (HVal.one o) h)) := by
    simp only [processProxyReq]
    rw [if_neg ho]
  rw [hred]
  refine ⟨?_, ?_, ?_⟩
  · rw [uaStep_get_ne _ _ (by decide), hget_hset_ne _ _ _ _ (by decide), hget_hset_self]
  · rw [uaStep_get_ne _ _ (by decide), hget_hset_self]
  · rw [uaStep_get, hget_hset_ne _ _ _ _ (by decide), hget_hset_ne _ _ _ _ (by decide)]

theorem c6_outbound_headers_amended_witness :
    hget (chars "referer") (processProxyReq (some (chars "https://x")) []) =
      some (HVal.one (chars "https://x" ++ chars "/")) :=
  (c6_outbound_headers_amended (chars "https://x") [] (by decide)).2.1

/-- C8 counterexample: with headers already sent, the error handler does not
merely terminate the connection as the claim states: it still writes the
generic "Proxy error" text onto the open response before ending it. -/
theorem c8_counterexample :
    ¬ (errorHandler (chars "ECONNREFUSED") ⟨true, some 200, [], [], false⟩ =
        { headersSent := true, statusWritten := some 200, headers := [], chunks := [],
          ended := true }) := by decide

/-- C8 amended: on a dispatch-time upstream failure, if response headers have
not been sent the client gets status 502 with Content-Type text/plain and the
short generic body "Proxy error", with nothing derived from the internal
error; if headers were already sent, no status is written, but the same
generic text is still appended to the open response before the connection is
ended; in both cases the outcome is independent of the internal error. -/
theorem c8_error_handler_amended (err : Str) (st : ResState) :
    (st.headersSent = false →
      errorHandler err st =
        { headersSent := true, statusWritten := some 502,
          headers := hset (chars "content-type") (HVal.one (chars "text/plain")) st.headers,
          chunks := st.chunks ++ [chars "Proxy error"], ended := true }) ∧
    (st.headersSent = true →
      errorHandler err st =
        { st with chunks := st.chunks ++ [chars "Proxy error"], ended := true }) ∧
    (∀ err2 : Str, errorHandler err st = errorHandler err2 st) := by
  unfold errorHandler
  refine ⟨?_, ?_, fun _ => rfl⟩
  · intro hs
    simp [hs]
  · intro hs
    simp [hs]

theorem c8_error_handler_amended_witness :
    errorHandler (chars "ECONNREFUSED") ⟨false, none, [], [], false⟩ =
      { headersSent := true, statusWritten := some 502,
        headers := hset (chars "content-type") (HVal.one (chars "text/plain")) [],
        chunks := [] ++ [chars "Proxy error"], ended := true } :=
  (c8_error_handler_amended (chars "ECONNREFUSED") ⟨false, none, [], [], false⟩).1 rfl

/-! Lemmas for the Set-Cookie rewrite (claim C2). -/

theorem attrStr_decomp (a : CookieAttr) : attrStr a = ';' :: ' ' :: (attrName a ++ attrVal a) := by
  cases a <;> rfl

theorem noSemi_attrName (a : CookieAttr) : noSemi (attrName a) = true := by
  cases a <;> rfl

theorem noSemi_append (a b : Str) : noSemi (a ++ b) = (noSemi a && noSemi b) := by
  simp [noSemi, List.all_append]

theorem lowerS_cons (c : Char) (z : Str) : lowerS (c :: z) = lowerC c :: lowerS z := rfl

theorem take9_cons (c : Char) (z : Str) : (c :: z).take 9 = c :: z.take 8 := rfl

theorem take8_cons (c : Char) (z : Str) : (c :: z).take 8 = c :: z.take 7 := rfl

theorem take7_cons (c : Char) (z : Str) : (c :: z).take 7 = c :: z.take 6 := rfl

theorem take6_cons (c : Char) (z : Str) : (c :: z).take 6 = c :: z.take 5 := rfl

theorem take5_cons (c : Char) (z : Str) : (c :: z).take 5 = c :: z.take 4 := rfl

theorem dropWhile_space_sp_cons (c : Char) (z : Str) (hc : isSpaceC c = false) :
    List.dropWhile isSpaceC (' ' :: c :: z) = c :: z := by
  rw [List.dropWhile_cons, if_pos (show isSpaceC ' ' = true from rfl), List.dropWhile_cons, hc]
  simp

theorem ss_head_ne (c : Char) (z : Str) (hc : lowerC c ≠ 's') :
    (lowerS ((c :: z).take 9) == chars "samesite=") = false := by
  rw [take9_cons, lowerS_cons, show chars "samesite=" = 's' :: chars "amesite=" from rfl]
  simp [hc]

theorem ss_second_ne (c1 c2 : Char) (z : Str) (hc : lowerC c2 ≠ 'a') :
    (lowerS ((c1 :: c2 :: z).take 9) == chars "samesite=") = false := by
  rw [take9_cons, take8_cons, lowerS_cons, lowerS_cons,
    show chars "samesite=" = 's' :: 'a' :: chars "mesite=" from rfl]
  simp [hc]

theorem sec_head_ne (c : Char) (z : Str) (hc : lowerC c ≠ 's') :
    (lowerS ((c :: z).take 6) == chars "secure") = false := by
  rw [take6_cons, lowerS_cons, show chars "secure" = 's' :: chars "ecure" from rfl]
  simp [hc]

theorem sec_second_ne (c1 c2 : Char) (z : Str) (hc : lowerC c2 ≠ 'e') :
    (lowerS ((c1 :: c2 :: z).take 6) == chars "secure") = false := by
  rw [take6_cons, take5_cons, lowerS_cons, lowerS_cons,
    show chars "secure" = 's' :: 'e' :: chars "cure" from rfl]
  simp [hc]

theorem dom_head_ne (c : Char) (z : Str) (hc : lowerC c ≠ 'd') :
    ¬ (lowerS ((c :: z).take 7) = chars "domain=") := by
  rw [take7_cons, lowerS_cons, show chars "domain=" = 'd' :: chars "omain=" from rfl]
  simp [hc]

theorem ssAt_semi (rest : Str) :
    ssAt (';' :: rest) = (lowerS ((rest.dropWhile isSpaceC).take 9) == chars "samesite=") := by
  simp [ssAt]

theorem secAt_semi (rest : Str) :
    secAt (';' :: rest) = (lowerS ((rest.dropWhile isSpaceC).take 6) == chars "secure") := by
  simp [secAt]

theorem ssAt_not_semi (c : Char) (rest : Str) (hc : c ≠ ';') : ssAt (c :: rest) = false := by
  simp [ssAt, hc]

theorem secAt_not_semi (c : Char) (rest : Str) (hc : c ≠ ';') : secAt (c :: rest) = false := by
  simp [secAt, hc]

theorem domAt_semi (rest : Str) :
    domAt (';' :: rest) =
      (if lowerS (((rest.dropWhile isSpaceC)).take 7) = chars "domain=" then
        some (((rest.dropWhile isSpaceC).drop 7).dropWhile (fun d => !(d == ';')))
      else none) := by
  simp [domAt]

theorem domAt_cons_ne (c : Char) (xs : Str) (hc : c ≠ ';') : domAt (c :: xs) = none := by
  simp [domAt, hc]

theorem replaceDomainAux_cons_nomatch (host : Str) (c : Char) (xs : Str)
    (hd : domAt (c :: xs) = none) :
    replaceDomainAux host (c :: xs) = c :: replaceDomainAux host xs := by
  rw [replaceDomainAux, hd]

theorem replaceDomainAux_cons_match (host : Str) (c : Char) (xs suffix : Str)
    (hd : domAt (c :: xs) = some suffix) :
    replaceDomainAux host (c :: xs) = chars "; Domain=" ++ host ++ suffix := by
  rw [replaceDomainAux, hd]

theorem noSemi_head_ne (c : Char) (s : Str) (h : noSemi (c :: s) = true) : c ≠ ';' := by
  intro hc
  rw [hc] at h
  simp [noSemi] at h

theorem noSemi_tail (c : Char) (s : Str) (h : noSemi (c :: s) = true) : noSemi s = true := by
  rw [noSemi, List.all_cons, Bool.and_eq_true] at h
  exact h.2

theorem replaceDomainAux_append_nosemi (host : Str) (s t : Str) (hs : noSemi s = true) :
    replaceDomainAux host (s ++ t) = s ++ replaceDomainAux host t := by
  induction s with
  | nil => simp
  | cons c s ih =>
    rw [List.cons_append,
      replaceDomainAux_cons_nomatch _ _ _ (domAt_cons_ne _ _ (noSemi_head_ne _ _ hs)),
      ih (noSemi_tail _ _ hs), List.cons_append]

theorem scanAny_cons (p : Str → Bool) (c : Char) (xs : Str) :
    scanAny p (c :: xs) = (p (c :: xs) || scanAny p xs) := rfl

theorem scanAny_append_skip (p : Str → Bool) (hp : ∀ c xs, c ≠ ';' → p (c :: xs) = false)
    (s t : Str) (hs : noSemi s = true) : scanAny p (s ++ t) = scanAny p t := by
  induction s with
  | nil => simp
  | cons c s ih =>
    rw [List.cons_append, scanAny_cons, hp _ _ (noSemi_head_ne _ _ hs), Bool.false_or,
      ih (noSemi_tail _ _ hs)]

theorem ssAt_attr (a : CookieAttr) (t : Str) (hv : noSemi (attrVal a) = true) :
    ssAt (attrStr a ++ t) = isSSA a := by
  rw [attrStr_decomp, List.cons_append, List.cons_append, ssAt_semi, List.append_assoc]
  cases a with
  | path v =>
    rw [show attrName (CookieAttr.path v) ++ (attrVal (CookieAttr.path v) ++ t) =
        'P' :: (chars "ath=" ++ (v ++ t)) from rfl]
    rw [dropWhile_space_sp_cons _ _ (by decide)]
    exact ss_head_ne _ _ (by decide)
  | expires v =>
    rw [show attrName (CookieAttr.expires v) ++ (attrVal (CookieAttr.expires v) ++ t) =
        'E' :: (chars "xpires=" ++ (v ++ t)) from rfl]
    rw [dropWhile_space_sp_cons _ _ (by decide)]
    exact ss_head_ne _ _ (by decide)
  | maxAge v =>
    rw [show attrName (CookieAttr.maxAge v) ++ (attrVal (CookieAttr.maxAge v) ++ t) =
        'M' :: (chars "ax-Age=" ++ (v ++ t)) from rfl]
    rw [dropWhile_space_sp_cons _ _ (by decide)]
    exact ss_head_ne _ _ (by decide)
  | domain v =>
    rw [show attrName (CookieAttr.domain v) ++ (attrVal (CookieAttr.domain v) ++ t) =
        'D' :: (chars "omain=" ++ (v ++ t)) from rfl]
    rw [dropWhile_space_sp_cons _ _ (by decide)]
    exact ss_head_ne _ _ (by decide)
  | secure =>
    rw [show attrName CookieAttr.secure ++ (attrVal CookieAttr.secure ++ t) =
        'S' :: 'e' :: (chars "cure" ++ t) from rfl]
    rw [dropWhile_space_sp_cons _ _ (by decide)]
    exact ss_second_ne _ _ _ (by decide)
  | httpOnly =>
    rw [show attrName CookieAttr.httpOnly ++ (attrVal CookieAttr.httpOnly ++ t) =
        'H' :: (chars "ttpOnly" ++ t) from rfl]
    rw [dropWhile_space_sp_cons _ _ (by decide)]
    exact ss_head_ne _ _ (by decide)
  | sameSite v =>
    rw [show attrName (CookieAttr.sameSite v) ++ (attrVal (CookieAttr.sameSite v) ++ t) =
        'S' :: (chars "ameSite=" ++ (v ++ t)) from rfl]
    rw [dropWhile_space_sp_cons _ _ (by decide)]
    rw [show ('S' : Char) :: (chars "ameSite=" ++ (v ++ t)) = chars "SameSite=" ++ (v ++ t)
      from rfl]
    rw [show (9 : Nat) = (chars "SameSite=").length from rfl, List.take_left]
    show (lowerS (chars "SameSite=") == chars "samesite=") = true
    decide

theorem secAt_attr (a : CookieAttr) (t : Str) (hv : noSemi (attrVal a) = true) :
    secAt (attrStr a ++ t) = isSecA a := by
  rw [attrStr_decomp, List.cons_append, List.cons_append, secAt_semi, List.append_assoc]
  cases a with
  | path v =>
    rw [show attrName (CookieAttr.path v) ++ (attrVal (CookieAttr.path v) ++ t) =
        'P' :: (chars "ath=" ++ (v ++ t)) from rfl]
    rw [dropWhile_space_sp_cons _ _ (by decide)]
    exact sec_head_ne _ _ (by decide)
  | expires v =>
    rw [show attrName (CookieAttr.expires v) ++ (attrVal (CookieAttr.expires v) ++ t) =
        'E' :: (chars "xpires=" ++ (v ++ t)) from rfl]
    rw [dropWhile_space_sp_cons _ _ (by decide)]
    exact sec_head_ne _ _ (by decide)
  | maxAge v =>
    rw [show attrName (CookieAttr.maxAge v) ++ (attrVal (CookieAttr.maxAge v) ++ t) =
        'M' :: (chars "ax-Age=" ++ (v ++ t)) from rfl]
    rw [dropWhile_space_sp_cons _ _ (by decide)]
    exact sec_head_ne _ _ (by decide)
  | domain v =>
    rw [show attrName (CookieAttr.domain v) ++ (attrVal (CookieAttr.domain v) ++ t) =
        'D' :: (chars "omain=" ++ (v ++ t)) from rfl]
    rw [dropWhile_space_sp_cons _ _ (by decide)]
    exact sec_head_ne _ _ (by decide)
  | secure =>
    rw [show attrName CookieAttr.secure ++ (attrVal CookieAttr.secure ++ t) =
        'S' :: (chars "ecure" ++ t) from rfl]
    rw [dropWhile_space_sp_cons _ _ (by decide)]
    rw [show ('S' : Char) :: (chars "ecure" ++ t) = chars "Secure" ++ t from rfl]
    rw [show (6 : Nat) = (chars "Secure").length from rfl, List.take_left]
    show (lowerS (chars "Secure") == chars "secure") = true
    decide
  | httpOnly =>
    rw [show attrName CookieAttr.httpOnly ++ (attrVal CookieAttr.httpOnly ++ t) =
        'H' :: (chars "ttpOnly" ++ t) from rfl]
    rw [dropWhile_space_sp_cons _ _ (by decide)]
    exact sec_head_ne _ _ (by decide)
  | sameSite v =>
    rw [show attrName (CookieAttr.sameSite v) ++ (attrVal (CookieAttr.sameSite v) ++ t) =
        'S' :: 'a' :: (chars "meSite=" ++ (v ++ t)) from rfl]
    rw [dropWhile_space_sp_cons _ _ (by decide)]
    exact sec_second_ne _ _ _ (by decide)

theorem domAt_attr_none (a : CookieAttr) (t : Str) (ha : isDomainA a = false) :
    domAt (attrStr a ++ t) = none := by
  rw [attrStr_decomp, List.cons_append, List.cons_append, domAt_semi, List.append_assoc]
  cases a with
  | path v =>
    rw [show attrName (CookieAttr.path v) ++ (attrVal (CookieAttr.path v) ++ t) =
        'P' :: (chars "ath=" ++ (v ++ t)) from rfl]
    rw [dropWhile_space_sp_cons _ _ (by decide), if_neg (dom_head_ne _ _ (by decide))]
  | expires v =>
    rw [show attrName (CookieAttr.expires v) ++ (attrVal (CookieAttr.expires v) ++ t) =
        'E' :: (chars "xpires=" ++ (v ++ t)) from rfl]
    rw [dropWhile_space_sp_cons _ _ (by decide), if_neg (dom_head_ne _ _ (by decide))]
  | maxAge v =>
    rw [show attrName (CookieAttr.maxAge v) ++ (attrVal (CookieAttr.maxAge v) ++ t) =
        'M' :: (chars "ax-Age=" ++ (v ++ t)) from rfl]
    rw [dropWhile_space_sp_cons _ _ (by decide), if_neg (dom_head_ne _ _ (by decide))]
  | domain v => simp [isDomainA] at ha
  | secure =>
    rw [show attrName CookieAttr.secure ++ (attrVal CookieAttr.secure ++ t) =
        'S' :: (chars "ecure" ++ t) from rfl]
    rw [dropWhile_space_sp_cons _ _ (by decide), if_neg (dom_head_ne _ _ (by decide))]
  | httpOnly =>
    rw [show attrName CookieAttr.httpOnly ++ (attrVal CookieAttr.httpOnly ++ t) =
        'H' :: (chars "ttpOnly" ++ t) from rfl]
    rw [dropWhile_space_sp_cons _ _ (by decide), if_neg (dom_head_ne _ _ (by decide))]
  | sameSite v =>
    rw [show attrName (CookieAttr.sameSite v) ++ (attrVal (CookieAttr.sameSite v) ++ t) =
        'S' :: (chars "ameSite=" ++ (v ++ t)) from rfl]
    rw [dropWhile_space_sp_cons _ _ (by decide), if_neg (dom_head_ne _ _ (by decide))]

theorem dropWhile_nosemi_append (v t : Str) (hv : noSemi v = true) :
    List.dropWhile (fun d => !(d == ';')) (v ++ t) =
      List.dropWhile (fun d => !(d == ';')) t := by
  induction v with
  | nil => simp
  | cons c s ih =>
    have hc : (!(c == ';')) = true := by
      simp [noSemi_head_ne _ _ hv]
    rw [List.cons_append, List.dropWhile_cons, if_pos hc, ih (noSemi_tail _ _ hv)]

theorem domAt_attr_domain (v t : Str) (hv : noSemi v = true)
    (ht : t = [] ∨ ∃ r, t = ';' :: r) :
    domAt (attrStr (CookieAttr.domain v) ++ t) = some t := by
  rw [attrStr_decomp, List.cons_append, List.cons_append, domAt_semi, List.append_assoc]
  rw [show attrName (CookieAttr.domain v) ++ (attrVal (CookieAttr.domain v) ++ t) =
      'D' :: (chars "omain=" ++ (v ++ t)) from rfl]
  rw [dropWhile_space_sp_cons _ _ (by decide)]
  rw [show ('D' : Char) :: (chars "omain=" ++ (v ++ t)) = chars "Domain=" ++ (v ++ t) from rfl]
  rw [show (7 : Nat) = (chars "Domain=").length from rfl, List.take_left, List.drop_left]
  rw [if_pos (by decide)]
  rw [dropWhile_nosemi_append _ _ hv]
  rcases ht with h | ⟨r, h⟩
  · rw [h]
    rfl
  · rw [h, List.dropWhile_cons]
    simp

theorem serializeAttrs_cons (a : CookieAttr) (l : List CookieAttr) :
    serializeAttrs (a :: l) = attrStr a ++ serializeAttrs l := by
  simp [serializeAttrs]

theorem serializeAttrs_append (l1 l2 : List CookieAttr) :
    serializeAttrs (l1 ++ l2) = serializeAttrs l1 ++ serializeAttrs l2 := by
  simp [serializeAttrs]

theorem serializeAttrs_shape (l : List CookieAttr) :
    serializeAttrs l = [] ∨ ∃ r, serializeAttrs l = ';' :: r := by
  cases l with
  | nil => exact Or.inl rfl
  | cons a rest =>
    right
    rw [serializeAttrs_cons, attrStr_decomp, List.cons_append]
    exact ⟨_, rfl⟩

theorem mapDomains_cons_nondom (host : Str) (a : CookieAttr) (l : List CookieAttr)
    (ha : isDomainA a = false) :
    mapDomains host (a :: l) = a :: mapDomains host l := by
  cases a <;> first | rfl | simp [isDomainA] at ha

theorem mapDomains_id (host : Str) (l : List CookieAttr) (h : l.countP isDomainA = 0) :
    mapDomains host l = l := by
  induction l with
  | nil => rfl
  | cons a rest ih =>
    rw [List.countP_cons] at h
    cases ha : isDomainA a with
    | true => rw [ha] at h; simp at h
    | false =>
      have h2 : rest.countP isDomainA = 0 := by
        rw [ha] at h
        simpa using h
      rw [mapDomains_cons_nondom _ _ _ ha, ih h2]

theorem noSemi_attr_tail (a : CookieAttr) (hv : noSemi (attrVal a) = true) :
    noSemi (' ' :: (attrName a ++ attrVal a)) = true := by
  have h1 := noSemi_attrName a
  rw [noSemi] at h1 hv ⊢
  simp [List.all_cons, List.all_append, h1, hv]

theorem replaceDomainAux_attr_nondom (host : Str) (a : CookieAttr) (t : Str)
    (ha : isDomainA a = false) (hv : noSemi (attrVal a) = true) :
    replaceDomainAux host (attrStr a ++ t) = attrStr a ++ replaceDomainAux host t := by
  have h1 : domAt (attrStr a ++ t) = none := domAt_attr_none _ _ ha
  rw [attrStr_decomp] at h1 ⊢
  rw [List.cons_append] at h1 ⊢
  rw [replaceDomainAux_cons_nomatch _ _ _ h1,
    replaceDomainAux_append_nosemi _ _ _ (noSemi_attr_tail a hv)]
  simp

theorem replaceDomainAux_ser (host : Str) (l : List CookieAttr)
    (hw : ∀ a ∈ l, wfAttr a = true) (hd : l.countP isDomainA ≤ 1) :
    replaceDomainAux host (serializeAttrs l) = serializeAttrs (mapDomains host l) := by
  induction l with
  | nil => rfl
  | cons a rest ih =>
    rw [serializeAttrs_cons]
    cases ha : isDomainA a with
    | false =>
      have hd2 : rest.countP isDomainA ≤ 1 := by
        rw [List.countP_cons, ha] at hd
        rw [show (if (false : Bool) = true then 1 else 0) = 0 from rfl] at hd
        omega
      rw [replaceDomainAux_attr_nondom _ _ _ ha (hw a (by simp)),
        ih (fun x hx => hw x (by simp [hx])) hd2,
        mapDomains_cons_nondom _ _ _ ha, serializeAttrs_cons]
    | true =>
      cases a with
      | domain v =>
        have hrest0 : rest.countP isDomainA = 0 := by
          rw [List.countP_cons, ha] at hd
          rw [show (if (true : Bool) = true then 1 else 0) = 1 from rfl] at hd
          omega
        have hv2 : noSemi v = true := hw (CookieAttr.domain v) (by simp)
        have hfire : domAt (attrStr (CookieAttr.domain v) ++ serializeAttrs rest) =
            some (serializeAttrs rest) :=
          domAt_attr_domain _ _ hv2 (serializeAttrs_shape rest)
        rw [attrStr_decomp] at hfire ⊢
        rw [List.cons_append] at hfire ⊢
        rw [replaceDomainAux_cons_match _ _ _ _ hfire]
        rw [show mapDomains host (CookieAttr.domain v :: rest) =
            CookieAttr.domain host :: mapDomains host rest from rfl]
        rw [mapDomains_id _ _ hrest0, serializeAttrs_cons]
        rw [show attrStr (CookieAttr.domain host) = chars "; Domain=" ++ host from rfl]
      | path v => simp [isDomainA] at ha
      | expires v => simp [isDomainA] at ha
      | maxAge v => simp [isDomainA] at ha
      | secure => simp [isDomainA] at ha
      | httpOnly => simp [isDomainA] at ha
      | sameSite v => simp [isDomainA] at ha

theorem scanAny_ss_attr (a : CookieAttr) (t : Str) (hv : noSemi (attrVal a) = true) :
    scanAny ssAt (attrStr a ++ t) = (isSSA a || scanAny ssAt t) := by
  have hd : attrStr a ++ t = ';' :: ((' ' :: (attrName a ++ attrVal a)) ++ t) := by
    rw [attrStr_decomp]
    simp
  rw [hd, scanAny_cons, ← hd, ssAt_attr _ _ hv,
    scanAny_append_skip ssAt ssAt_not_semi _ _ (noSemi_attr_tail a hv)]

theorem scanAny_sec_attr (a : CookieAttr) (t : Str) (hv : noSemi (attrVal a) = true) :
    scanAny secAt (attrStr a ++ t) = (isSecA a || scanAny secAt t) := by
  have hd : attrStr a ++ t = ';' :: ((' ' :: (attrName a ++ attrVal a)) ++ t) := by
    rw [attrStr_decomp]
    simp
  rw [hd, scanAny_cons, ← hd, secAt_attr _ _ hv,
    scanAny_append_skip secAt secAt_not_semi _ _ (noSemi_attr_tail a hv)]

theorem scanAny_ss_ser_append (l : List CookieAttr) (t : Str)
    (hw : ∀ a ∈ l, wfAttr a = true) :
    scanAny ssAt (serializeAttrs l ++ t) = (l.any isSSA || scanAny ssAt t) := by
  induction l with
  | nil => simp [serializeAttrs]
  | cons a rest ih =>
    rw [serializeAttrs_cons, List.append_assoc, scanAny_ss_attr _ _ (hw a (by simp)),
      ih (fun x hx => hw x (by simp [hx])), List.any_cons, Bool.or_assoc]

theorem scanAny_sec_ser_append (l : List CookieAttr) (t : Str)
    (hw : ∀ a ∈ l, wfAttr a = true) :
    scanAny secAt (serializeAttrs l ++ t) = (l.any isSecA || scanAny secAt t) := by
  induction l with
  | nil => simp [serializeAttrs]
  | cons a rest ih =>
    rw [serializeAttrs_cons, List.append_assoc, scanAny_sec_attr _ _ (hw a (by simp)),
      ih (fun x hx => hw x (by simp [hx])), List.any_cons, Bool.or_assoc]

theorem noSemi_prefix_nv (n v : Str) (hn : noSemi n = true) (hv : noSemi v = true) :
    noSemi (n ++ '=' :: v) = true := by
  rw [noSemi, List.all_append, List.all_cons]
  rw [noSemi] at hn hv
  rw [hn, hv]
  rfl

theorem cookieStr_eq (n v : Str) (l : List CookieAttr) :
    cookieStr n v l = (n ++ '=' :: v) ++ serializeAttrs l := by
  rw [cookieStr]

theorem cookieStr_snoc (n v : Str) (l : List CookieAttr) (a : CookieAttr) :
    cookieStr n v (l ++ [a]) = cookieStr n v l ++ attrStr a := by
  rw [cookieStr_eq, cookieStr_eq, serializeAttrs_append]
  simp [serializeAttrs]

theorem replaceDomainAux_cookie (host n v : Str) (attrs : List CookieAttr)
    (hn : noSemi n = true) (hv : noSemi v = true)
    (hw : ∀ a ∈ attrs, wfAttr a = true) (hd : attrs.countP isDomainA ≤ 1) :
    replaceDomainAux host (cookieStr n v attrs) = cookieStr n v (mapDomains host attrs) := by
  rw [cookieStr_eq, cookieStr_eq,
    replaceDomainAux_append_nosemi _ _ _ (noSemi_prefix_nv _ _ hn hv),
    replaceDomainAux_ser host attrs hw hd]

theorem testSameSite_cookie (n v : Str) (attrs : List CookieAttr)
    (hn : noSemi n = true) (hv : noSemi v = true) (hw : ∀ a ∈ attrs, wfAttr a = true) :
    testSameSite (cookieStr n v attrs) = attrs.any isSSA := by
  unfold testSameSite
  rw [cookieStr_eq, scanAny_append_skip ssAt ssAt_not_semi _ _ (noSemi_prefix_nv _ _ hn hv),
    ← List.append_nil (serializeAttrs attrs), scanAny_ss_ser_append _ _ hw]
  simp [scanAny]

theorem testSecure_cookie (n v : Str) (attrs : List CookieAttr)
    (hn : noSemi n = true) (hv : noSemi v = true) (hw : ∀ a ∈ attrs, wfAttr a = true) :
    testSecure (cookieStr n v attrs) = attrs.any isSecA := by
  unfold testSecure
  rw [cookieStr_eq, scanAny_append_skip secAt secAt_not_semi _ _ (noSemi_prefix_nv _ _ hn hv),
    ← List.append_nil (serializeAttrs attrs), scanAny_sec_ser_append _ _ hw]
  simp [scanAny]

theorem wf_mapDomains (host : Str) (l : List CookieAttr)
    (hw : ∀ a ∈ l, wfAttr a = true) (hh : noSemi host = true) :
    ∀ a ∈ mapDomains host l, wfAttr a = true := by
  intro a ha
  rw [mapDomains, List.mem_map] at ha
  rcases ha with ⟨b, hb, hba⟩
  subst hba
  cases b with
  | domain w => exact hh
  | path w => exact hw _ hb
  | expires w => exact hw _ hb
  | maxAge w => exact hw _ hb
  | secure => exact hw _ hb
  | httpOnly => exact hw _ hb
  | sameSite w => exact hw _ hb

theorem wf_snoc (l : List CookieAttr) (a : CookieAttr)
    (hw : ∀ x ∈ l, wfAttr x = true) (ha : wfAttr a = true) :
    ∀ x ∈ l ++ [a], wfAttr x = true := by
  intro x hx
  rcases List.mem_append.mp hx with h | h
  · exact hw x h
  · rw [List.mem_singleton.mp h]
    exact ha

theorem sameSiteStep_cookie (n v : Str) (l : List CookieAttr)
    (hn : noSemi n = true) (hv : noSemi v = true) (hw : ∀ a ∈ l, wfAttr a = true) :
    sameSiteStep (cookieStr n v l) = cookieStr n v (specSameSite l) := by
  unfold sameSiteStep specSameSite
  rw [testSameSite_cookie _ _ _ hn hv hw]
  by_cases h : l.any isSSA = true
  · rw [if_pos h, if_pos h]
  · rw [if_neg h, if_neg h, cookieStr_snoc]
    rfl

theorem secureStep_cookie (n v : Str) (l : List CookieAttr)
    (hn : noSemi n = true) (hv : noSemi v = true) (hw : ∀ a ∈ l, wfAttr a = true) :
    secureStep (cookieStr n v l) = cookieStr n v (specSecure l) := by
  unfold secureStep specSecure
  rw [testSecure_cookie _ _ _ hn hv hw]
  by_cases h : l.any isSecA = true
  · rw [if_pos h, if_pos h]
  · rw [if_neg h, if_neg h, cookieStr_snoc]
    rfl

theorem mem_mapDomains_domain (host w : Str) (l : List CookieAttr)
    (h : CookieAttr.domain w ∈ mapDomains host l) : w = host := by
  rw [mapDomains, List.mem_map] at h
  rcases h with ⟨b, hb, hba⟩
  cases b <;> simp at hba
  exact hba.symm

theorem any_ss_mapDomains (host : Str) (l : List CookieAttr) :
    (mapDomains host l).any isSSA = l.any isSSA := by
  induction l with
  | nil => rfl
  | cons a rest ih =>
    rw [show mapDomains host (a :: rest) =
        (match a with | CookieAttr.domain _ => CookieAttr.domain host | x => x) ::
          mapDomains host rest from rfl]
    cases a <;> simp [List.any_cons, isSSA, ih]

theorem any_sec_mapDomains (host : Str) (l : List CookieAttr) :
    (mapDomains host l).any isSecA = l.any isSecA := by
  induction l with
  | nil => rfl
  | cons a rest ih =>
    rw [show mapDomains host (a :: rest) =
        (match a with | CookieAttr.domain _ => CookieAttr.domain host | x => x) ::
          mapDomains host rest from rfl]
    cases a <;> simp [List.any_cons, isSecA, ih]

theorem filter_path_mapDomains (host : Str) (l : List CookieAttr) :
    (mapDomains host l).filter isPathA = l.filter isPathA := by
  induction l with
  | nil => rfl
  | cons a rest ih =>
    rw [show mapDomains host (a :: rest) =
        (match a with | CookieAttr.domain _ => CookieAttr.domain host | x => x) ::
          mapDomains host rest from rfl]
    cases a <;> simp [List.filter_cons, isPathA, ih]

theorem filter_expires_mapDomains (host : Str) (l : List CookieAttr) :
    (mapDomains host l).filter isExpiresA = l.filter isExpiresA := by
  induction l with
  | nil => rfl
  | cons a rest ih =>
    rw [show mapDomains host (a :: rest) =
        (match a with | CookieAttr.domain _ => CookieAttr.domain host | x => x) ::
          mapDomains host rest from rfl]
    cases a <;> simp [List.filter_cons, isExpiresA, ih]

theorem specSameSite_any_ss (l : List CookieAttr) : (specSameSite l).any isSSA = true := by
  unfold specSameSite
  by_cases h : l.any isSSA = true
  · rw [if_pos h]; exact h
  · rw [if_neg h, List.any_append]
    simp [isSSA]

theorem specSecure_any_sec (l : List CookieAttr) : (specSecure l).any isSecA = true := by
  unfold specSecure
  by_cases h : l.any isSecA = true
  · rw [if_pos h]; exact h
  · rw [if_neg h, List.any_append]
    simp [isSecA]

theorem specSecure_any_ss (l : List CookieAttr) : (specSecure l).any isSSA = l.any isSSA := by
  unfold specSecure
  by_cases h : l.any isSecA = true
  · rw [if_pos h]
  · rw [if_neg h, List.any_append]
    simp [isSSA]

theorem specSameSite_filter_path (l : List CookieAttr) :
    (specSameSite l).filter isPathA = l.filter isPathA := by
  unfold specSameSite
  by_cases h : l.any isSSA = true
  · rw [if_pos h]
  · rw [if_neg h, List.filter_append]
    simp [isPathA, List.filter_cons]

theorem specSecure_filter_path (l : List CookieAttr) :
    (specSecure l).filter isPathA = l.filter isPathA := by
  unfold specSecure
  by_cases h : l.any isSecA = true
  · rw [if_pos h]
  · rw [if_neg h, List.filter_append]
    simp [isPathA, List.filter_cons]

theorem specSameSite_filter_expires (l : List CookieAttr) :
    (specSameSite l).filter isExpiresA = l.filter isExpiresA := by
  unfold specSameSite
  by_cases h : l.any isSSA = true
  · rw [if_pos h]
  · rw [if_neg h, List.filter_append]
    simp [isExpiresA, List.filter_cons]

theorem specSecure_filter_expires (l : List CookieAttr) :
    (specSecure l).filter isExpiresA = l.filter isExpiresA := by
  unfold specSecure
  by_cases h : l.any isSecA = true
  · rw [if_pos h]
  · rw [if_neg h, List.filter_append]
    simp [isExpiresA, List.filter_cons]

theorem mem_specSameSite_domain (w : Str) (l : List CookieAttr)
    (h : CookieAttr.domain w ∈ specSameSite l) : CookieAttr.domain w ∈ l := by
  unfold specSameSite at h
  by_cases hc : l.any isSSA = true
  · rw [if_pos hc] at h; exact h
  · rw [if_neg hc] at h
    rcases List.mem_append.mp h with h1 | h1
    · exact h1
    · simp at h1

theorem mem_specSecure_domain (w : Str) (l : List CookieAttr)
    (h : CookieAttr.domain w ∈ specSecure l) : CookieAttr.domain w ∈ l := by
  unfold specSecure at h
  by_cases hc : l.any isSecA = true
  · rw [if_pos hc] at h; exact h
  · rw [if_neg hc] at h
    rcases List.mem_append.mp h with h1 | h1
    · exact h1
    · simp at h1

/-- C2: for every well-formed upstream Set-Cookie string (name, value and
attribute values free of semicolons, at most one Domain attribute), the
source-level string rewrite equals the spec-level attribute rewrite: any
Domain attribute is replaced by the proxy host, SameSite=None and Secure are
appended exactly when missing, and the cookie's name, value, Path and
Expires attributes are never altered; every Domain attribute of the result
is the proxy's host and the result always carries SameSite and Secure. -/
theorem c2_set_cookie_rewrite (host n v : Str) (attrs : List CookieAttr)
    (hn : noSemi n = true) (hv : noSemi v = true) (hh : noSemi host = true)
    (hw : ∀ a ∈ attrs, wfAttr a = true) (hd : attrs.countP isDomainA ≤ 1) :
    rewriteCookie host (cookieStr n v attrs) = cookieStr n v (specCookieRewrite host attrs) ∧
    (∀ w, CookieAttr.domain w ∈ specCookieRewrite host attrs → w = host) ∧
    (specCookieRewrite host attrs).any isSSA = true ∧
    (specCookieRewrite host attrs).any isSecA = true ∧
    (specCookieRewrite host attrs).filter isPathA = attrs.filter isPathA ∧
    (specCookieRewrite host attrs).filter isExpiresA = attrs.filter isExpiresA := by
  have hw1 : ∀ a ∈ mapDomains host attrs, wfAttr a = true := wf_mapDomains _ _ hw hh
  have hw2 : ∀ a ∈ specSameSite (mapDomains host attrs), wfAttr a = true := by
    unfold specSameSite
    by_cases h : (mapDomains host attrs).any isSSA = true
    · rw [if_pos h]; exact hw1
    · rw [if_neg h]; exact wf_snoc _ _ hw1 (by rfl)
  refine ⟨?_, ?_, ?_, ?_, ?_, ?_⟩
  · rw [rewriteCookie, replaceDomainAux_cookie _ _ _ _ hn hv hw hd,
      sameSiteStep_cookie _ _ _ hn hv hw1, secureStep_cookie _ _ _ hn hv hw2]
    rfl
  · intro w hmem
    unfold specCookieRewrite at hmem
    exact mem_mapDomains_domain _ _ _
      (mem_specSameSite_domain _ _ (mem_specSecure_domain _ _ hmem))
  · unfold specCookieRewrite
    rw [specSecure_any_ss]
    exact specSameSite_any_ss _
  · unfold specCookieRewrite
    exact specSecure_any_sec _
  · unfold specCookieRewrite
    rw [specSecure_filter_path, specSameSite_filter_path, filter_path_mapDomains]
  · unfold specCookieRewrite
    rw [specSecure_filter_expires, specSameSite_filter_expires, filter_expires_mapDomains]

/-- Witness for C2 at a concrete cookie: sid=abc123; Path=/; Domain=evil.com
rewritten for proxy host proxy.local. -/
theorem c2_set_cookie_rewrite_witness :
    rewriteCookie (chars "proxy.local")
        (cookieStr (chars "sid") (chars "abc123")
          [CookieAttr.path (chars "/"), CookieAttr.domain (chars "evil.com")]) =
      cookieStr (chars "sid") (chars "abc123")
        (specCookieRewrite (chars "proxy.local")
          [CookieAttr.path (chars "/"), CookieAttr.domain (chars "evil.com")]) :=
  (c2_set_cookie_rewrite (chars "proxy.local") (chars "sid") (chars "abc123")
    [CookieAttr.path (chars "/"), CookieAttr.domain (chars "evil.com")]
    (by decide) (by decide) (by decide) (by decide) (by decide)).1

/-! Generic list and character lemmas for the URL model (claims C1, C4, C9). -/

theorem tw_all_append (p : Char → Bool) (l r : Str) (hl : l.all p = true) :
    (l ++ r).takeWhile p = l ++ r.takeWhile p := by
  induction l with
  | nil => simp
  | cons c s ih =>
    rw [List.all_cons, Bool.and_eq_true] at hl
    rw [List.cons_append, List.takeWhile_cons_of_pos hl.1, ih hl.2, List.cons_append]

theorem dw_all_append (p : Char → Bool) (l r : Str) (hl : l.all p = true) :
    (l ++ r).dropWhile p = r.dropWhile p := by
  induction l with
  | nil => simp
  | cons c s ih =>
    rw [List.all_cons, Bool.and_eq_true] at hl
    rw [List.cons_append, List.dropWhile_cons_of_pos hl.1, ih hl.2]

theorem tw_stop (p : Char → Bool) (l : Str) (c : Char) (r : Str)
    (hl : l.all p = true) (hc : p c = false) :
    (l ++ c :: r).takeWhile p = l := by
  rw [tw_all_append _ _ _ hl, List.takeWhile_cons_of_neg (by rw [hc]; exact Bool.false_ne_true)]
  simp

theorem dw_stop (p : Char → Bool) (l : Str) (c : Char) (r : Str)
    (hl : l.all p = true) (hc : p c = false) :
    (l ++ c :: r).dropWhile p = c :: r := by
  rw [dw_all_append _ _ _ hl, List.dropWhile_cons_of_neg (by rw [hc]; exact Bool.false_ne_true)]

theorem all_takeWhile_self (p : Char → Bool) (l : Str) : (l.takeWhile p).all p = true := by
  induction l with
  | nil => rfl
  | cons c s ih =>
    by_cases h : p c = true
    · rw [List.takeWhile_cons_of_pos h, List.all_cons, h, ih]
      rfl
    · rw [List.takeWhile_cons_of_neg h]
      rfl

theorem all_takeWhile_of_all (p q : Char → Bool) (l : Str) (h : l.all q = true) :
    (l.takeWhile p).all q = true := by
  induction l with
  | nil => rfl
  | cons c s ih =>
    rw [List.all_cons, Bool.and_eq_true] at h
    by_cases hp : p c = true
    · rw [List.takeWhile_cons_of_pos hp, List.all_cons, h.1, ih h.2]
      rfl
    · rw [List.takeWhile_cons_of_neg hp]
      rfl

theorem dropWhile_head_false (p : Char → Bool) (l : Str) (c : Char) (r : Str)
    (h : l.dropWhile p = c :: r) : p c = false := by
  induction l with
  | nil => simp at h
  | cons a s ih =>
    by_cases ha : p a = true
    · rw [List.dropWhile_cons_of_pos ha] at h
      exact ih h
    · rw [List.dropWhile_cons_of_neg ha] at h
      injection h with h1 h2
      rw [← h1]
      simpa using ha

theorem char_toNat_ofNat (n : Nat) (h : n < 55296) : (Char.ofNat n).toNat = n := by
  simp [Char.ofNat, Nat.isValidChar, h, Char.ofNatAux, Char.toNat, UInt32.toNat, UInt32.ofNat',
    BitVec.toNat_ofNatLt]

theorem char_eq_of_toNat_eq (c d : Char) (h : c.toNat = d.toNat) : c = d := by
  rw [← Char.ofNat_toNat c, h, Char.ofNat_toNat]

theorem lowerC_toNat_of_upper (c : Char) (h1 : 65 ≤ c.toNat) (h2 : c.toNat ≤ 90) :
    (lowerC c).toNat = c.toNat + 32 := by
  rw [lowerC, if_pos ⟨h1, h2⟩]
  exact char_toNat_ofNat _ (by omega)

theorem lowerC_eq_of_not_upper (c : Char) (h : ¬(65 ≤ c.toNat ∧ c.toNat ≤ 90)) :
    lowerC c = c := by
  rw [lowerC, if_neg h]

theorem lowerC_idem (c : Char) : lowerC (lowerC c) = lowerC c := by
  by_cases h : 65 ≤ c.toNat ∧ c.toNat ≤ 90
  · have ht : (lowerC c).toNat = c.toNat + 32 := lowerC_toNat_of_upper _ h.1 h.2
    apply lowerC_eq_of_not_upper
    rw [ht]
    omega
  · rw [lowerC_eq_of_not_upper _ h, lowerC_eq_of_not_upper _ h]

theorem lowerS_idem (s : Str) : lowerS (lowerS s) = lowerS s := by
  induction s with
  | nil => rfl
  | cons c s ih =>
    rw [show lowerS (c :: s) = lowerC c :: lowerS s from rfl,
      show lowerS (lowerC c :: lowerS s) = lowerC (lowerC c) :: lowerS (lowerS s) from rfl,
      lowerC_idem, ih]

theorem isAlphaC_of_range (c : Char)
    (h : (65 ≤ c.toNat ∧ c.toNat ≤ 90) ∨ (97 ≤ c.toNat ∧ c.toNat ≤ 122)) :
    isAlphaC c = true := decide_eq_true h

theorem isAlphaC_lowerC (c : Char) : isAlphaC (lowerC c) = isAlphaC c := by
  by_cases h : 65 ≤ c.toNat ∧ c.toNat ≤ 90
  · rw [isAlphaC_of_range _ (Or.inl h)]
    apply isAlphaC_of_range
    right
    rw [lowerC_toNat_of_upper _ h.1 h.2]
    omega
  · rw [lowerC_eq_of_not_upper _ h]

theorem isSchemeC_of_alpha (c : Char) (h : isAlphaC c = true) : isSchemeC c = true := by
  rw [isSchemeC, h]
  rfl

theorem isSchemeC_lowerC (c : Char) : isSchemeC (lowerC c) = isSchemeC c := by
  by_cases h : 65 ≤ c.toNat ∧ c.toNat ≤ 90
  · rw [isSchemeC_of_alpha _ (isAlphaC_of_range _ (Or.inl h))]
    apply isSchemeC_of_alpha
    apply isAlphaC_of_range
    right
    rw [lowerC_toNat_of_upper _ h.1 h.2]
    omega
  · rw [lowerC_eq_of_not_upper _ h]

theorem all_isSchemeC_lowerS (l : Str) (h : l.all isSchemeC = true) :
    (lowerS l).all isSchemeC = true := by
  induction l with
  | nil => rfl
  | cons c s ih =>
    rw [List.all_cons, Bool.and_eq_true] at h
    rw [show lowerS (c :: s) = lowerC c :: lowerS s from rfl, List.all_cons,
      isSchemeC_lowerC, h.1, ih h.2]
    rfl

theorem splitScheme_canon (s sc rest : Str) (h : splitScheme s = some (sc, rest)) :
    canonScheme sc = true := by
  cases s with
  | nil => simp [splitScheme] at h
  | cons c s2 =>
    simp only [splitScheme] at h
    by_cases hc : isAlphaC c = true
    · rw [if_pos hc] at h
      cases hdw : (c :: s2).dropWhile isSchemeC with
      | nil => rw [hdw] at h; simp at h
      | cons d r =>
        rw [hdw] at h
        dsimp only at h
        by_cases hd : d = ':'
        · rw [if_pos hd] at h
          simp only [Option.some.injEq, Prod.mk.injEq] at h
          have hsc : sc = lowerS ((c :: s2).takeWhile isSchemeC) := h.1.symm
          have htw : (c :: s2).takeWhile isSchemeC = c :: s2.takeWhile isSchemeC :=
            List.takeWhile_cons_of_pos (isSchemeC_of_alpha _ hc)
          rw [hsc, htw]
          rw [show lowerS (c :: s2.takeWhile isSchemeC) =
              lowerC c :: lowerS (s2.takeWhile isSchemeC) from rfl]
          rw [canonScheme]
          have h1 : isAlphaC (lowerC c) = true := by rw [isAlphaC_lowerC]; exact hc
      
          have h2 : (lowerC c :: lowerS (s2.takeWhile isSchemeC)).all isSchemeC = true := by
            rw [show lowerC c :: lowerS (s2.takeWhile isSchemeC) =
                lowerS (c :: s2.takeWhile isSchemeC) from rfl]
            apply all_isSchemeC_lowerS
            rw [← htw]
            exact all_takeWhile_self _ _
          have h3 : lowerS (lowerC c :: lowerS (s2.takeWhile isSchemeC)) =
              lowerC c :: lowerS (s2.takeWhile isSchemeC) := by
            rw [show lowerC c :: lowerS (s2.takeWhile isSchemeC) =
                lowerS (c :: s2.takeWhile isSchemeC) from rfl]
            exact lowerS_idem _
          rw [h1, h2, h3]
          simp
        · rw [if_neg hd] at h
          simp at h
    · rw [if_neg hc] at h
      simp at h

theorem splitScheme_canon_append (sc r2 : Str) (hc : canonScheme sc = true) :
    splitScheme (sc ++ ':' :: r2) = some (sc, r2) := by
  cases sc with
  | nil => simp [canonScheme] at hc
  | cons c s2 =>
    rw [canonScheme] at hc
    simp only [Bool.and_eq_true, beq_iff_eq] at hc
    obtain ⟨⟨halpha, hall⟩, hlow⟩ := hc
    rw [List.cons_append]
    simp only [splitScheme]
    rw [if_pos halpha]
    have hdw : (c :: (s2 ++ ':' :: r2)).dropWhile isSchemeC = ':' :: r2 := by
      have := dw_stop isSchemeC (c :: s2) ':' r2 hall (by decide)
      rw [List.cons_append] at this
      exact this
    have htw : (c :: (s2 ++ ':' :: r2)).takeWhile isSchemeC = c :: s2 := by
      have := tw_stop isSchemeC (c :: s2) ':' r2 hall (by decide)
      rw [List.cons_append] at this
      exact this
    rw [hdw]
    dsimp only
    rw [if_pos rfl, htw, hlow]

theorem parseHostPort_round (host : Str) (port : Option Str)
    (hh : host.all (fun c => !(c == ':')) = true)
    (hp : port = none ∨ ∃ p, port = some p ∧ p ≠ [] ∧ p.all isDigitC = true) :
    parseHostPort (host ++ portStr port) = some (host, port) := by
  cases port with
  | none =>
    unfold parseHostPort portStr
    rw [List.append_nil]
    have htw : host.takeWhile (fun c => !(c == ':')) = host := by
      have := tw_all_append (fun c => !(c == ':')) host [] hh
      simpa using this
    have hdw : host.dropWhile (fun c => !(c == ':')) = [] := by
      have := dw_all_append (fun c => !(c == ':')) host [] hh
      simpa using this
    rw [hdw, htw]
  | some p =>
    unfold parseHostPort portStr
    rw [tw_stop _ _ _ _ hh (by decide), dw_stop _ _ _ _ hh (by decide)]
    dsimp only
    rcases hp with h | ⟨p2, h, hne, hdig⟩
    · simp at h
    · have hp2 : p2 = p := by
        injection h with h2
        exact h2.symm
      subst hp2
      rw [if_neg hne, if_pos hdig]

theorem splitPathQF_fst (s : Str) :
    (splitPathQF s).1 = s.takeWhile (fun c => !(c == '?' || c == '#')) := rfl

theorem qfOf_q_shape (r : Str) :
    (qfOf r).1 = [] ∨ ∃ t, (qfOf r).1 = '?' :: t ∧ t.all (fun d => !(d == '#')) = true := by
  cases r with
  | nil => exact Or.inl rfl
  | cons c rest =>
    unfold qfOf
    dsimp only
    by_cases hc : c = '?'
    · rw [if_pos hc]
      subst hc
      rw [show (('?' :: rest).takeWhile (fun d => !(d == '#')), ('?' :: rest).dropWhile
          (fun d => !(d == '#'))).1 = ('?' :: rest).takeWhile (fun d => !(d == '#')) from rfl]
      rw [List.takeWhile_cons_of_pos (by decide)]
      exact Or.inr ⟨_, rfl, all_takeWhile_self _ _⟩
    · rw [if_neg hc]
      exact Or.inl rfl

theorem dropWhile_shape (p : Char → Bool) (l : Str) :
    l.dropWhile p = [] ∨ ∃ c r, l.dropWhile p = c :: r ∧ p c = false := by
  cases hdw : l.dropWhile p with
  | nil => exact Or.inl rfl
  | cons c r => exact Or.inr ⟨c, r, rfl, dropWhile_head_false _ _ _ _ hdw⟩

theorem splitPathQF_snd_shape (s : Str) :
    (splitPathQF s).2.1 = [] ∨
    ∃ r, (splitPathQF s).2.1 = '?' :: r ∧ r.all (fun d => !(d == '#')) = true := by
  rw [show (splitPathQF s).2.1 =
      (qfOf (s.dropWhile (fun c => !(c == '?' || c == '#')))).1 from rfl]
  exact qfOf_q_shape _

theorem splitPathQF_hash_shape (s : Str) :
    (splitPathQF s).2.2 = [] ∨ ∃ r, (splitPathQF s).2.2 = '#' :: r := by
  rw [show (splitPathQF s).2.2 =
      (qfOf (s.dropWhile (fun c => !(c == '?' || c == '#')))).2 from rfl]
  rcases dropWhile_shape (fun c => !(c == '?' || c == '#')) s with h | ⟨c, r, h, hc⟩
  · rw [h]
    exact Or.inl rfl
  · rw [h]
    simp only [Bool.not_eq_false', Bool.or_eq_true, beq_iff_eq] at hc
    unfold qfOf
    dsimp only
    by_cases hq : c = '?'
    · rw [if_pos hq]
      rcases dropWhile_shape (fun d => !(d == '#')) (c :: r) with h2 | ⟨d, r2, h2, hd⟩
      · rw [h2]
        exact Or.inl rfl
      · rw [h2]
        simp only [Bool.not_eq_false', beq_iff_eq] at hd
        subst hd
        exact Or.inr ⟨r2, rfl⟩
    · rw [if_neg hq]
      rcases hc with h1 | h1
      · exact absurd h1 hq
      · subst h1
        exact Or.inr ⟨r, rfl⟩

theorem splitPathQF_fst_head_slash (x : Str)
    (hx : x = [] ∨ ∃ c r, x = c :: r ∧ (c = '/' ∨ c = '?' ∨ c = '#')) :
    (splitPathQF x).1 = [] ∨ startsSlash (splitPathQF x).1 = true := by
  rw [splitPathQF_fst]
  rcases hx with h | ⟨c, r, hx, hc⟩
  · subst h
    exact Or.inl rfl
  · subst hx
    rcases hc with h | h | h
    · subst h
      rw [List.takeWhile_cons_of_pos (by decide)]
      exact Or.inr rfl
    · subst h
      rw [List.takeWhile_cons_of_neg (by decide)]
      exact Or.inl rfl
    · subst h
      rw [List.takeWhile_cons_of_neg (by decide)]
      exact Or.inl rfl

theorem isTwoSlash_takeWhile (p : Char → Bool) (l : Str)
    (h : isTwoSlash (l.takeWhile p) = true) : isTwoSlash l = true := by
  cases l with
  | nil => simp [isTwoSlash] at h
  | cons a l2 =>
    by_cases ha : p a = true
    · rw [List.takeWhile_cons_of_pos ha] at h
      cases l2 with
      | nil => simp [isTwoSlash] at h
      | cons b l3 =>
        by_cases hb : p b = true
        · rw [List.takeWhile_cons_of_pos hb] at h
          exact h
        · rw [List.takeWhile_cons_of_neg hb] at h
          simp [isTwoSlash] at h
    · rw [List.takeWhile_cons_of_neg ha] at h
      simp [isTwoSlash] at h

theorem parseHostPort_some (a h0 : Str) (p0 : Option Str)
    (h : parseHostPort a = some (h0, p0)) :
    h0 = a.takeWhile (fun c => !(c == ':')) ∧
    (p0 = none ∨ ∃ p, p0 = some p ∧ p ≠ [] ∧ p.all isDigitC = true) := by
  unfold parseHostPort at h
  dsimp only at h
  cases hdw : a.dropWhile (fun c => !(c == ':')) with
  | nil =>
    rw [hdw] at h
    dsimp only at h
    simp only [Option.some.injEq, Prod.mk.injEq] at h
    exact ⟨h.1.symm, Or.inl h.2.symm⟩
  | cons d p =>
    rw [hdw] at h
    dsimp only at h
    by_cases hp : p = []
    · rw [if_pos hp] at h
      simp only [Option.some.injEq, Prod.mk.injEq] at h
      exact ⟨h.1.symm, Or.inl h.2.symm⟩
    · rw [if_neg hp] at h
      by_cases hd : p.all isDigitC = true
      · rw [if_pos hd] at h
        simp only [Option.some.injEq, Prod.mk.injEq] at h
        exact ⟨h.1.symm, Or.inr ⟨p, h.2.symm, hp, hd⟩⟩
      · rw [if_neg hd] at h
        simp at h

theorem notDelimC_false_cases (c : Char) (h : notDelimC c = false) :
    c = '/' ∨ c = '?' ∨ c = '#' := by
  simp [notDelimC] at h
  tauto

theorem hostOkC_of_notDelim_noColon (c : Char) (h1 : notDelimC c = true)
    (h2 : (!(c == ':')) = true) : hostOkC c = true := by
  simp [notDelimC] at h1
  simp at h2
  simp [hostOkC, h2]
  tauto

theorem char_ne_of_toNat_ne (c d : Char) (h : c.toNat ≠ d.toNat) : c ≠ d := by
  intro he
  exact h (by rw [he])

theorem hostOkC_of_range (c : Char) (h1 : 97 ≤ c.toNat) (h2 : c.toNat ≤ 122) :
    hostOkC c = true := by
  have hs : c ≠ '/' := char_ne_of_toNat_ne _ _ (by rw [show ('/' : Char).toNat = 47 from rfl]; omega)
  have hq : c ≠ '?' := char_ne_of_toNat_ne _ _ (by rw [show ('?' : Char).toNat = 63 from rfl]; omega)
  have hh : c ≠ '#' := char_ne_of_toNat_ne _ _ (by rw [show ('#' : Char).toNat = 35 from rfl]; omega)
  have hc : c ≠ ':' := char_ne_of_toNat_ne _ _ (by rw [show (':' : Char).toNat = 58 from rfl]; omega)
  simp [hostOkC, hs, hq, hh, hc]

theorem hostOkC_lowerC (c : Char) (h : hostOkC c = true) : hostOkC (lowerC c) = true := by
  by_cases hu : 65 ≤ c.toNat ∧ c.toNat ≤ 90
  · apply hostOkC_of_range
    · rw [lowerC_toNat_of_upper _ hu.1 hu.2]; omega
    · rw [lowerC_toNat_of_upper _ hu.1 hu.2]; omega
  · rw [lowerC_eq_of_not_upper _ hu]; exact h

theorem all_hostOkC_lowerS (l : Str) (h : l.all hostOkC = true) :
    (lowerS l).all hostOkC = true := by
  induction l with
  | nil => rfl
  | cons c s ih =>
    rw [List.all_cons, Bool.and_eq_true] at h
    rw [show lowerS (c :: s) = lowerC c :: lowerS s from rfl, List.all_cons,
      hostOkC_lowerC _ h.1, ih h.2]
    rfl

theorem pathOrSlash_all (p : Str) (h : p.all (fun c => !(c == '?' || c == '#')) = true) :
    (pathOrSlash p).all (fun c => !(c == '?' || c == '#')) = true := by
  unfold pathOrSlash
  by_cases hp : p = []
  · rw [if_pos hp]; rfl
  · rw [if_neg hp]; exact h

theorem pathOrSlash_ne_nil (p : Str) : pathOrSlash p ≠ [] := by
  unfold pathOrSlash
  by_cases hp : p = []
  · rw [if_pos hp]; decide
  · rw [if_neg hp]; exact hp

theorem pathOrSlash_startsSlash (p : Str) (h : p = [] ∨ startsSlash p = true) :
    startsSlash (pathOrSlash p) = true := by
  unfold pathOrSlash
  rcases h with h | h
  · rw [if_pos h]; rfl
  · by_cases hp : p = []
    · rw [if_pos hp]; rfl
    · rw [if_neg hp]; exact h

theorem specialTail_canon (sc rest : Str) (u : UrlM)
    (hsc : canonScheme sc = true) (hspec : isSpecial sc = true)
    (h : specialTail sc rest = some u) : canonUrl u := by
  unfold specialTail at h
  cases hpp : parseHostPort ((rest.dropWhile (fun c => c == '/')).takeWhile notDelimC) with
  | none => rw [hpp] at h; simp at h
  | some hp0 =>
    rw [hpp] at h
    obtain ⟨h0, p0⟩ := hp0
    dsimp only at h
    by_cases hh0 : h0 = []
    · rw [if_pos hh0] at h; simp at h
    · rw [if_neg hh0] at h
      simp only [Option.some.injEq] at h
      obtain ⟨hhost, hport⟩ := parseHostPort_some _ _ _ hpp
      have hallA : ((rest.dropWhile (fun c => c == '/')).takeWhile notDelimC).all notDelimC =
          true := all_takeWhile_self _ _
      have hall1 : h0.all hostOkC = true := by
        rw [List.all_eq_true]
        intro c hc
        rw [hhost] at hc
        have hnd : notDelimC c = true := by
          have := all_takeWhile_of_all (fun c => !(c == ':')) notDelimC _ hallA
          rw [List.all_eq_true] at this
          exact this c hc
        have hnc : (!(c == ':')) = true := by
          have := all_takeWhile_self (fun c => !(c == ':'))
            ((rest.dropWhile (fun c => c == '/')).takeWhile notDelimC)
          rw [List.all_eq_true] at this
          exact this c hc
        exact hostOkC_of_notDelim_noColon _ hnd hnc
      have hafter : (rest.dropWhile (fun c => c == '/')).dropWhile notDelimC = [] ∨
          ∃ c r, (rest.dropWhile (fun c => c == '/')).dropWhile notDelimC = c :: r ∧
            (c = '/' ∨ c = '?' ∨ c = '#') := by
        rcases dropWhile_shape notDelimC (rest.dropWhile (fun c => c == '/')) with h1 | ⟨c, r, h1, h2⟩
        · exact Or.inl h1
        · exact Or.inr ⟨c, r, h1, notDelimC_false_cases _ h2⟩
      have hhead := splitPathQF_fst_head_slash _ hafter
      subst h
      refine ⟨hsc, ?_, ?_, ?_, ?_, ?_⟩
      · exact pathOrSlash_all _ (by rw [splitPathQF_fst]; exact all_takeWhile_self _ _)
      · exact splitPathQF_snd_shape _
      · exact splitPathQF_hash_shape _
      · rw [if_pos rfl]
        refine ⟨all_hostOkC_lowerS _ hall1, hport, Or.inr (pathOrSlash_startsSlash _ ?_)⟩
        rcases hhead with h1 | h1
        · exact Or.inl h1
        · exact Or.inr h1
      · intro _
        refine ⟨rfl, ?_, lowerS_idem _, pathOrSlash_ne_nil _, pathOrSlash_startsSlash _ ?_⟩
        · show lowerS h0 ≠ []
          simp only [lowerS, Ne, List.map_eq_nil_iff]
          exact hh0
        · exact hhead

theorem nonspecialAuthTail_canon (sc r : Str) (u : UrlM)
    (hsc : canonScheme sc = true) (hnspec : isSpecial sc = false)
    (h : nonspecialAuthTail sc r = some u) : canonUrl u := by
  unfold nonspecialAuthTail at h
  cases hpp : parseHostPort (r.takeWhile notDelimC) with
  | none => rw [hpp] at h; simp at h
  | some hp0 =>
    rw [hpp] at h
    obtain ⟨h0, p0⟩ := hp0
    dsimp only at h
    simp only [Option.some.injEq] at h
    obtain ⟨hhost, hport⟩ := parseHostPort_some _ _ _ hpp
    have hallA : (r.takeWhile notDelimC).all notDelimC = true := all_takeWhile_self _ _
    have hall1 : h0.all hostOkC = true := by
      rw [List.all_eq_true]
      intro c hc
      rw [hhost] at hc
      have hnd : notDelimC c = true := by
        have := all_takeWhile_of_all (fun c => !(c == ':')) notDelimC _ hallA
        rw [List.all_eq_true] at this
        exact this c hc
      have hnc : (!(c == ':')) = true := by
        have := all_takeWhile_self (fun c => !(c == ':')) (r.takeWhile notDelimC)
        rw [List.all_eq_true] at this
        exact this c hc
      exact hostOkC_of_notDelim_noColon _ hnd hnc
    have hafter : r.dropWhile notDelimC = [] ∨
        ∃ c t, r.dropWhile notDelimC = c :: t ∧ (c = '/' ∨ c = '?' ∨ c = '#') := by
      rcases dropWhile_shape notDelimC r with h1 | ⟨c, t, h1, h2⟩
      · exact Or.inl h1
      · exact Or.inr ⟨c, t, h1, notDelimC_false_cases _ h2⟩
    subst h
    refine ⟨hsc, ?_, ?_, ?_, ?_, ?_⟩
    · rw [splitPathQF_fst]
      exact all_takeWhile_self _ _
    · exact splitPathQF_snd_shape _
    · exact splitPathQF_hash_shape _
    · rw [if_pos rfl]
      exact ⟨hall1, hport, splitPathQF_fst_head_slash _ hafter⟩
    · intro hq
      rw [hq] at hnspec
      simp at hnspec

theorem opaqueTail_canon (sc rest : Str)
    (hsc : canonScheme sc = true) (hnspec : isSpecial sc = false)
    (hts : isTwoSlash rest = false) : canonUrl (opaqueTail sc rest) := by
  refine ⟨hsc, ?_, ?_, ?_, ?_, ?_⟩
  · rw [show (opaqueTail sc rest).pathname = (splitPathQF rest).1 from rfl, splitPathQF_fst]
    exact all_takeWhile_self _ _
  · exact splitPathQF_snd_shape _
  · exact splitPathQF_hash_shape _
  · rw [show (opaqueTail sc rest).auth = false from rfl]
    rw [if_neg (by simp)]
    refine ⟨rfl, rfl, ?_⟩
    rw [show (opaqueTail sc rest).pathname = (splitPathQF rest).1 from rfl, splitPathQF_fst]
    cases h2 : isTwoSlash (rest.takeWhile (fun c => !(c == '?' || c == '#'))) with
    | false => rfl
    | true => rw [isTwoSlash_takeWhile _ _ h2] at hts; exact hts
  · intro hq
    have hq2 : isSpecial sc = true := hq
    rw [hq2] at hnspec
    simp at hnspec

theorem parseAbs_canon (s : Str) (u : UrlM) (h : parseAbs s = some u) : canonUrl u := by
  unfold parseAbs at h
  cases hsp : splitScheme s with
  | none => rw [hsp] at h; simp at h
  | some screst =>
    rw [hsp] at h
    obtain ⟨sc, rest⟩ := screst
    dsimp only at h
    have hsc := splitScheme_canon _ _ _ hsp
    by_cases hspec : isSpecial sc = true
    · rw [if_pos hspec] at h
      exact specialTail_canon _ _ _ hsc hspec h
    · rw [if_neg hspec] at h
      rw [Bool.not_eq_true] at hspec
      cases rest with
      | nil =>
        simp only [Option.some.injEq] at h
        subst h
        exact opaqueTail_canon _ _ hsc hspec rfl
      | cons c1 rest1 =>
        cases rest1 with
        | nil =>
          simp only [Option.some.injEq] at h
          subst h
          exact opaqueTail_canon _ _ hsc hspec rfl
        | cons c2 r =>
          dsimp only at h
          by_cases hsl : c1 = '/' ∧ c2 = '/'
          · rw [if_pos hsl] at h
            exact nonspecialAuthTail_canon _ _ _ hsc hspec h
          · rw [if_neg hsl] at h
            simp only [Option.some.injEq] at h
            subst h
            apply opaqueTail_canon _ _ hsc hspec
            cases hts : isTwoSlash (c1 :: c2 :: r) with
            | false => rfl
            | true =>
              exfalso
              apply hsl
              have hb : (c1 == '/' && c2 == '/') = true := hts
              simpa using hb

theorem tw_self (p : Char → Bool) (l : Str) (h : l.all p = true) : l.takeWhile p = l := by
  have := tw_all_append p l [] h
  simpa using this

theorem dw_nil (p : Char → Bool) (l : Str) (h : l.all p = true) : l.dropWhile p = [] := by
  have := dw_all_append p l [] h
  simpa using this

theorem splitPathQF_canon (pa q f : Str)
    (hp : pa.all (fun c => !(c == '?' || c == '#')) = true)
    (hq : q = [] ∨ ∃ r, q = '?' :: r ∧ r.all (fun d => !(d == '#')) = true)
    (hf : f = [] ∨ ∃ r, f = '#' :: r) :
    splitPathQF (pa ++ q ++ f) = (pa, q, f) := by
  unfold splitPathQF
  rcases hq with hq0 | ⟨rq, hq1, hq2⟩
  · subst hq0
    rcases hf with hf0 | ⟨rf, hf1⟩
    · subst hf0
      rw [List.append_nil, List.append_nil, tw_self _ _ hp, dw_nil _ _ hp]
      rfl
    · subst hf1
      rw [List.append_nil, tw_stop _ _ _ _ hp (by decide), dw_stop _ _ _ _ hp (by decide)]
      rw [show qfOf ('#' :: rf) = ([], '#' :: rf) from by
        unfold qfOf
        dsimp only
        rw [if_neg (by decide)]]
  · subst hq1
    have hassoc : pa ++ '?' :: rq ++ f = pa ++ '?' :: (rq ++ f) := by
      rw [List.append_assoc]
      rfl
    rw [hassoc, tw_stop _ _ _ _ hp (by decide), dw_stop _ _ _ _ hp (by decide)]
    have hq1 : qfOf ('?' :: (rq ++ f)) =
        (('?' :: (rq ++ f)).takeWhile (fun d => !(d == '#')),
         ('?' :: (rq ++ f)).dropWhile (fun d => !(d == '#'))) := by
      unfold qfOf
      dsimp only
      rw [if_pos rfl]
    rw [hq1, List.takeWhile_cons_of_pos (by decide), List.dropWhile_cons_of_pos (by decide)]
    rcases hf with hf0 | ⟨rf, hf1⟩
    · subst hf0
      rw [List.append_nil, tw_self _ _ hq2, dw_nil _ _ hq2]
    · subst hf1
      rw [tw_stop _ _ _ _ hq2 (by decide), dw_stop _ _ _ _ hq2 (by decide)]

theorem notDelimC_of_hostOkC (c : Char) (h : hostOkC c = true) : notDelimC c = true := by
  simp [hostOkC] at h
  simp [notDelimC]
  tauto

theorem not_colon_of_hostOkC (c : Char) (h : hostOkC c = true) : (!(c == ':')) = true := by
  simp [hostOkC] at h
  simp
  tauto

theorem notDelimC_digit (c : Char) (h : isDigitC c = true) : notDelimC c = true := by
  rw [isDigitC] at h
  rw [decide_eq_true_eq] at h
  have hs : c ≠ '/' :=
    char_ne_of_toNat_ne _ _ (by rw [show ('/' : Char).toNat = 47 from rfl]; omega)
  have hq : c ≠ '?' :=
    char_ne_of_toNat_ne _ _ (by rw [show ('?' : Char).toNat = 63 from rfl]; omega)
  have hh : c ≠ '#' :=
    char_ne_of_toNat_ne _ _ (by rw [show ('#' : Char).toNat = 35 from rfl]; omega)
  simp [notDelimC, hs, hq, hh]

theorem portStr_all_notDelim (port : Option Str)
    (hp : port = none ∨ ∃ p, port = some p ∧ p ≠ [] ∧ p.all isDigitC = true) :
    (portStr port).all notDelimC = true := by
  rcases hp with h | ⟨p, h, hne, hdig⟩
  · subst h; rfl
  · subst h
    rw [portStr, List.all_cons, show notDelimC ':' = true from rfl, Bool.true_and,
      List.all_eq_true]
    rw [List.all_eq_true] at hdig
    intro c hc
    exact notDelimC_digit c (hdig c hc)

theorem authority_split (hostp Y : Str) (hall : hostp.all notDelimC = true)
    (hY : Y = [] ∨ ∃ c r, Y = c :: r ∧ notDelimC c = false) :
    (hostp ++ Y).takeWhile notDelimC = hostp ∧ (hostp ++ Y).dropWhile notDelimC = Y := by
  rcases hY with h | ⟨c, r, h, hc⟩
  · subst h
    rw [List.append_nil]
    exact ⟨tw_self _ _ hall, dw_nil _ _ hall⟩
  · subst h
    exact ⟨tw_stop _ _ _ _ hall hc, dw_stop _ _ _ _ hall hc⟩

theorem pqf_head (path q f : Str) (hp : path = [] ∨ startsSlash path = true)
    (hq : q = [] ∨ ∃ r, q = '?' :: r ∧ r.all (fun d => !(d == '#')) = true)
    (hf : f = [] ∨ ∃ r, f = '#' :: r) :
    path ++ q ++ f = [] ∨ ∃ c r, path ++ q ++ f = c :: r ∧ notDelimC c = false := by
  rcases hp with hp0 | hp1
  · subst hp0
    rcases hq with hq0 | ⟨rq, hq1, _⟩
    · subst hq0
      rcases hf with hf0 | ⟨rf, hf1⟩
      · subst hf0; exact Or.inl rfl
      · subst hf1; exact Or.inr ⟨'#', rf, rfl, by decide⟩
    · subst hq1
      exact Or.inr ⟨'?', rq ++ f, by simp, by decide⟩
  · cases path with
    | nil => simp [startsSlash] at hp1
    | cons c rest =>
      have hc : c = '/' := by simpa [startsSlash] using hp1
      subst hc
      exact Or.inr ⟨'/', rest ++ q ++ f, by simp, by decide⟩

theorem isTwoSlash_pqf (path q f : Str) (hts : isTwoSlash path = false)
    (hq : q = [] ∨ ∃ r, q = '?' :: r ∧ r.all (fun d => !(d == '#')) = true)
    (hf : f = [] ∨ ∃ r, f = '#' :: r) :
    isTwoSlash (path ++ q ++ f) = false := by
  have hqf : q ++ f = [] ∨ ∃ c r, q ++ f = c :: r ∧ (c = '?' ∨ c = '#') := by
    rcases hq with hq0 | ⟨rq, hq1, _⟩
    · subst hq0
      rcases hf with hf0 | ⟨rf, hf1⟩
      · subst hf0; exact Or.inl rfl
      · subst hf1; exact Or.inr ⟨'#', rf, rfl, Or.inr rfl⟩
    · subst hq1
      exact Or.inr ⟨'?', rq ++ f, by simp, Or.inl rfl⟩
  cases path with
  | nil =>
    simp only [List.nil_append]
    rcases hqf with h | ⟨c, r, h, hc⟩
    · rw [h]
      rfl
    · rw [h]
      cases r with
      | nil => rcases hc with hc | hc <;> subst hc <;> rfl
      | cons b rb => rcases hc with hc | hc <;> subst hc <;> rfl
  | cons a tl =>
    cases tl with
    | nil =>
      simp only [List.cons_append, List.nil_append]
      rcases hqf with h | ⟨c, r, h, hc⟩
      · rw [h]
        rfl
      · rw [h]
        show ((a == '/') && (c == '/')) = false
        rcases hc with hc | hc <;> subst hc <;> simp
    | cons b tl2 =>
      show ((a == '/') && (b == '/')) = false
      exact hts

theorem all_notDelim_of_hostOk (l : Str) (h : l.all hostOkC = true) :
    l.all notDelimC = true := by
  rw [List.all_eq_true] at h ⊢
  intro c hc
  exact notDelimC_of_hostOkC _ (h c hc)

theorem all_nocolon_of_hostOk (l : Str) (h : l.all hostOkC = true) :
    l.all (fun c => !(c == ':')) = true := by
  rw [List.all_eq_true] at h ⊢
  intro c hc
  exact not_colon_of_hostOkC _ (h c hc)

theorem specialTail_round (sc host : Str) (port : Option Str) (path q f : Str)
    (hhost : host.all hostOkC = true) (hhne : host ≠ []) (hlow : lowerS host = host)
    (hport : port = none ∨ ∃ p, port = some p ∧ p ≠ [] ∧ p.all isDigitC = true)
    (hpath : path.all (fun c => !(c == '?' || c == '#')) = true)
    (hpne : path ≠ []) (hps : startsSlash path = true)
    (hq : q = [] ∨ ∃ r, q = '?' :: r ∧ r.all (fun d => !(d == '#')) = true)
    (hf : f = [] ∨ ∃ r, f = '#' :: r) :
    specialTail sc ((chars "//" ++ (host ++ portStr port)) ++ (path ++ (q ++ f))) =
      some ⟨sc, true, host, port, path, q, f⟩ := by
  cases host with
  | nil => exact absurd rfl hhne
  | cons c0 htl =>
    have hc0 : hostOkC c0 = true := by
      rw [List.all_cons, Bool.and_eq_true] at hhost
      exact hhost.1
    have hc0s : (c0 == '/') = false := by
      simp [hostOkC] at hc0
      simp [hc0]
    have hrw : (chars "//" ++ ((c0 :: htl) ++ portStr port)) ++ (path ++ (q ++ f)) =
        ['/', '/'] ++ (c0 :: ((htl ++ portStr port) ++ (path ++ (q ++ f)))) := rfl
    rw [hrw]
    unfold specialTail
    rw [dw_stop (fun c => c == '/') ['/', '/'] c0 _ (by decide) hc0s]
    have hfold : c0 :: ((htl ++ portStr port) ++ (path ++ (q ++ f))) =
        ((c0 :: htl) ++ portStr port) ++ (path ++ (q ++ f)) := rfl
    rw [hfold]
    have hallhp : ((c0 :: htl) ++ portStr port).all notDelimC = true := by
      rw [List.all_append, all_notDelim_of_hostOk _ hhost, portStr_all_notDelim _ hport]
      rfl
    have hph := parseHostPort_round (c0 :: htl) port (all_nocolon_of_hostOk _ hhost) hport
    have hsplit := splitPathQF_canon path q f hpath hq hf
    have hpqf := pqf_head path q f (Or.inr hps) hq hf
    simp only [List.append_assoc] at hpqf
    obtain ⟨htw, hdw⟩ := authority_split ((c0 :: htl) ++ portStr port) (path ++ (q ++ f))
      hallhp hpqf
    simp only [List.append_assoc, List.cons_append] at htw hdw hph hsplit ⊢
    rw [htw, hdw, hph]
    dsimp only
    rw [if_neg hhne, hsplit]
    rw [show pathOrSlash (path, q, f).1 = pathOrSlash path from rfl]
    rw [show pathOrSlash path = path from by unfold pathOrSlash; rw [if_neg hpne]]
    rw [hlow]

theorem nonspecialAuthTail_round (sc host : Str) (port : Option Str) (path q f : Str)
    (hhost : host.all hostOkC = true)
    (hport : port = none ∨ ∃ p, port = some p ∧ p ≠ [] ∧ p.all isDigitC = true)
    (hpath : path.all (fun c => !(c == '?' || c == '#')) = true)
    (hpor : path = [] ∨ startsSlash path = true)
    (hq : q = [] ∨ ∃ r, q = '?' :: r ∧ r.all (fun d => !(d == '#')) = true)
    (hf : f = [] ∨ ∃ r, f = '#' :: r) :
    nonspecialAuthTail sc ((host ++ portStr port) ++ (path ++ (q ++ f))) =
      some ⟨sc, true, host, port, path, q, f⟩ := by
  have hallhp : (host ++ portStr port).all notDelimC = true := by
    rw [List.all_append, all_notDelim_of_hostOk _ hhost, portStr_all_notDelim _ hport]
    rfl
  have hph := parseHostPort_round host port (all_nocolon_of_hostOk _ hhost) hport
  have hsplit := splitPathQF_canon path q f hpath hq hf
  have hpqf := pqf_head path q f hpor hq hf
  simp only [List.append_assoc] at hpqf
  obtain ⟨htw, hdw⟩ := authority_split (host ++ portStr port) (path ++ (q ++ f)) hallhp hpqf
  unfold nonspecialAuthTail
  simp only [List.append_assoc, List.cons_append] at htw hdw hph hsplit ⊢
  rw [htw, hdw, hph, hsplit]

theorem opaqueTail_round (sc path q f : Str)
    (hpath : path.all (fun c => !(c == '?' || c == '#')) = true)
    (hq : q = [] ∨ ∃ r, q = '?' :: r ∧ r.all (fun d => !(d == '#')) = true)
    (hf : f = [] ∨ ∃ r, f = '#' :: r) :
    opaqueTail sc (path ++ q ++ f) = ⟨sc, false, [], none, path, q, f⟩ := by
  unfold opaqueTail
  rw [splitPathQF_canon _ _ _ hpath hq hf]

theorem parseAbs_href (u : UrlM) (hc : canonUrl u) : parseAbs u.href = some u := by
  obtain ⟨sc, auth, host, port, path, q, f⟩ := u
  obtain ⟨hsc, hpath, hsearch, hhash, hauth, hspecial⟩ := hc
  cases auth with
  | true =>
    rw [if_pos rfl] at hauth
    obtain ⟨hhostall, hportsh, hpathor⟩ := hauth
    show parseAbs (sc ++ ':' ::
      ((chars "//" ++ host ++ portStr port) ++ path ++ q ++ f)) = some ⟨sc, true, host, port, path, q, f⟩
    unfold parseAbs
    rw [splitScheme_canon_append _ _ hsc]
    dsimp only
    by_cases hsp : isSpecial sc = true
    · rw [if_pos hsp]
      obtain ⟨_, hhne, hlowh, hpne, hps⟩ := hspecial hsp
      have hr := specialTail_round sc host port path q f hhostall hhne hlowh hportsh
        hpath hpne hps hsearch hhash
      simp only [List.append_assoc] at hr ⊢
      exact hr
    · rw [if_neg hsp]
      have hR : (chars "//" ++ host ++ portStr port) ++ path ++ q ++ f =
          '/' :: '/' :: ((host ++ portStr port) ++ path ++ q ++ f) := rfl
      rw [hR]
      dsimp only
      rw [if_pos ⟨rfl, rfl⟩]
      have hr := nonspecialAuthTail_round sc host port path q f hhostall hportsh
        hpath hpathor hsearch hhash
      simp only [List.append_assoc] at hr ⊢
      exact hr
  | false =>
    rw [if_neg (by simp)] at hauth
    obtain ⟨hhost0, hport0, hts⟩ := hauth
    subst hhost0
    subst hport0
    show parseAbs (sc ++ ':' :: (([] : Str) ++ path ++ q ++ f)) =
      some ⟨sc, false, [], none, path, q, f⟩
    unfold parseAbs
    rw [splitScheme_canon_append _ _ hsc]
    dsimp only
    have hsp : isSpecial sc = false := by
      cases hq2 : isSpecial sc with
      | false => rfl
      | true => exact absurd (hspecial hq2).1 (by simp)
    rw [if_neg (by rw [hsp]; simp)]
    have hR : ([] : Str) ++ path ++ q ++ f = path ++ q ++ f := by simp
    rw [hR]
    cases hR1 : path ++ q ++ f with
    | nil =>
      dsimp only
      have h0 : path = [] ∧ q = [] ∧ f = [] := by
        rcases List.append_eq_nil.mp hR1 with ⟨h1, h2⟩
        rcases List.append_eq_nil.mp h1 with ⟨h3, h4⟩
        exact ⟨h3, h4, h2⟩
      obtain ⟨h3, h4, h2⟩ := h0
      subst h3
      subst h4
      subst h2
      rfl
    | cons c1 rest1 =>
      cases rest1 with
      | nil =>
        dsimp only
        rw [← hR1, opaqueTail_round _ _ _ _ hpath hsearch hhash]
      | cons c2 r =>
        dsimp only
        by_cases hsl : c1 = '/' ∧ c2 = '/'
        · exfalso
          have h1 := isTwoSlash_pqf path q f hts hsearch hhash
          have h2 : isTwoSlash (path ++ (q ++ f)) = true := by
            rw [← List.append_assoc, hR1]
            show ((c1 == '/') && (c2 == '/')) = true
            rw [hsl.1, hsl.2]
            rfl
          rw [← List.append_assoc] at h2
          rw [h1] at h2
          simp at h2
        · rw [if_neg hsl]
          rw [← hR1, opaqueTail_round _ _ _ _ hpath hsearch hhash]

theorem all_of_sublist (p : Char → Bool) (l1 l2 : Str) (h : List.Sublist l1 l2)
    (h2 : l2.all p = true) : l1.all p = true := by
  rw [List.all_eq_true] at h2 ⊢
  exact fun x hx => h2 x (h.subset hx)

theorem startsSlash_append (a x : Str) (h : startsSlash a = true) :
    startsSlash (a ++ x) = true := by
  cases a with
  | nil => simp [startsSlash] at h
  | cons c t => exact h

theorem ne_nil_of_startsSlash (a : Str) (h : startsSlash a = true) : a ≠ [] := by
  intro h0
  subst h0
  simp [startsSlash] at h

theorem dirOf_eq (p : Str) :
    dirOf p = if p.reverse.dropWhile (fun c => !(c == '/')) = [] then chars "/"
      else (p.reverse.dropWhile (fun c => !(c == '/'))).reverse := rfl

theorem dirOf_canon (p : Str) (hall : p.all (fun c => !(c == '?' || c == '#')) = true)
    (hs : p = [] ∨ startsSlash p = true) :
    (dirOf p).all (fun c => !(c == '?' || c == '#')) = true ∧ startsSlash (dirOf p) = true := by
  rw [dirOf_eq]
  by_cases hr : p.reverse.dropWhile (fun c => !(c == '/')) = []
  · rw [if_pos hr]
    exact ⟨by decide, by decide⟩
  · rw [if_neg hr]
    have hsuf : List.IsSuffix (p.reverse.dropWhile (fun c => !(c == '/'))) p.reverse :=
      List.dropWhile_suffix _
    have hpre : List.IsPrefix (p.reverse.dropWhile (fun c => !(c == '/'))).reverse p := by
      have h2 := List.reverse_prefix.mpr hsuf
      rwa [List.reverse_reverse] at h2
    constructor
    · exact all_of_sublist _ _ _ hpre.sublist hall
    · have hpne : p ≠ [] := by
        intro h0
        subst h0
        simp at hr
      have hsp : startsSlash p = true := by
        rcases hs with h1 | h1
        · exact absurd h1 hpne
        · exact h1
      obtain ⟨t, ht⟩ := hpre
      cases hrev : (p.reverse.dropWhile (fun c => !(c == '/'))).reverse with
      | nil =>
        exact absurd (List.reverse_eq_nil_iff.mp hrev) hr
      | cons d ds =>
        rw [hrev] at ht
        rw [← ht] at hsp
        exact hsp

theorem resolveRel_canon (loc : Str) (b : UrlM) (u : UrlM) (hb : canonUrl b)
    (h : resolveRel loc b = some u) : canonUrl u := by
  obtain ⟨sc, auth, host, port, path, q, f⟩ := b
  obtain ⟨hsc, hpath, hq, hf, hauth, hspec⟩ := hb
  unfold resolveRel at h
  cases auth with
  | true =>
    rw [if_pos rfl] at h
    rw [if_pos rfl] at hauth
    obtain ⟨hhost, hport, hpsl⟩ := hauth
    cases loc with
    | nil =>
      dsimp only at h
      injection h with h2
      subst h2
      unfold canonUrl
      dsimp only
      rw [if_pos rfl]
      refine ⟨hsc, hpath, hq, Or.inl rfl, ⟨hhost, hport, hpsl⟩, ?_⟩
      intro hsp
      exact hspec hsp
    | cons c rest =>
      dsimp only at h
      by_cases hc1 : c = '/'
      · rw [if_pos hc1] at h
        by_cases hts : isTwoSlash (c :: rest) = true
        · rw [if_pos hts] at h
          exact parseAbs_canon _ _ h
        · rw [if_neg hts] at h
          injection h with h2
          subst h2
          subst hc1
          unfold canonUrl
          dsimp only
          rw [if_pos rfl]
          refine ⟨hsc, ?_, splitPathQF_snd_shape _, splitPathQF_hash_shape _,
            ⟨hhost, hport, ?_⟩, ?_⟩
          · rw [splitPathQF_fst]
            exact all_takeWhile_self _ _
          · rw [splitPathQF_fst, List.takeWhile_cons_of_pos (by decide)]
            exact Or.inr rfl
          · intro hsp
            obtain ⟨_, hhne, hlow, _, _⟩ := hspec hsp
            refine ⟨rfl, hhne, hlow, ?_, ?_⟩
            · rw [splitPathQF_fst, List.takeWhile_cons_of_pos (by decide)]
              exact List.cons_ne_nil _ _
            · rw [splitPathQF_fst, List.takeWhile_cons_of_pos (by decide)]
              rfl
      · rw [if_neg hc1] at h
        by_cases hc2 : c = '?'
        · rw [if_pos hc2] at h
          injection h with h2
          subst h2
          subst hc2
          unfold canonUrl
          dsimp only
          rw [if_pos rfl]
          refine ⟨hsc, hpath, ?_, ?_, ⟨hhost, hport, hpsl⟩, ?_⟩
          · rw [List.takeWhile_cons_of_pos (by decide)]
            exact Or.inr ⟨_, rfl, all_takeWhile_self _ _⟩
          · rcases dropWhile_shape (fun d => !(d == '#')) ('?' :: rest) with h2 | ⟨d, r2, h2, hd⟩
            · rw [h2]
              exact Or.inl rfl
            · rw [h2]
              simp only [Bool.not_eq_false', beq_iff_eq] at hd
              subst hd
              exact Or.inr ⟨r2, rfl⟩
          · intro hsp
            obtain ⟨_, hhne, hlow, hpne, hpsl2⟩ := hspec hsp
            exact ⟨rfl, hhne, hlow, hpne, hpsl2⟩
        · rw [if_neg hc2] at h
          by_cases hc3 : c = '#'
          · rw [if_pos hc3] at h
            injection h with h2
            subst h2
            subst hc3
            unfold canonUrl
            dsimp only
            rw [if_pos rfl]
            refine ⟨hsc, hpath, hq, Or.inr ⟨rest, rfl⟩, ⟨hhost, hport, hpsl⟩, ?_⟩
            intro hsp
            obtain ⟨_, hhne, hlow, hpne, hpsl2⟩ := hspec hsp
            exact ⟨rfl, hhne, hlow, hpne, hpsl2⟩
          · rw [if_neg hc3] at h
            injection h with h2
            subst h2
            have hdir := dirOf_canon path hpath hpsl
            unfold canonUrl
            dsimp only
            rw [if_pos rfl]
            refine ⟨hsc, ?_, splitPathQF_snd_shape _, splitPathQF_hash_shape _,
              ⟨hhost, hport, ?_⟩, ?_⟩
            · rw [List.all_append, hdir.1, splitPathQF_fst, all_takeWhile_self]
              rfl
            · exact Or.inr (startsSlash_append _ _ hdir.2)
            · intro hsp
              obtain ⟨_, hhne, hlow, _, _⟩ := hspec hsp
              refine ⟨rfl, hhne, hlow, ?_, startsSlash_append _ _ hdir.2⟩
              intro h0
              exact ne_nil_of_startsSlash _ hdir.2 (List.append_eq_nil.mp h0).1
  | false =>
    rw [if_neg (by simp)] at h
    rw [if_neg (by simp)] at hauth
    obtain ⟨hhost0, hport0, hts⟩ := hauth
    cases loc with
    | nil =>
      exact absurd h (by simp)
    | cons c rest =>
      dsimp only at h
      by_cases hc : c = '#'
      · rw [if_pos hc] at h
        injection h with h2
        subst h2
        subst hc
        unfold canonUrl
        dsimp only
        rw [if_neg (by simp)]
        refine ⟨hsc, hpath, hq, Or.inr ⟨rest, rfl⟩, ⟨hhost0, hport0, hts⟩, ?_⟩
        intro hsp
        exact absurd (hspec hsp).1 (by simp)
      · rw [if_neg hc] at h
        exact absurd h (by simp)

theorem resolveURL_canon (loc : Str) (base : Option Str) (u : UrlM)
    (h : resolveURL loc base = some u) : canonUrl u := by
  unfold resolveURL at h
  cases base with
  | none => exact parseAbs_canon _ _ h
  | some b =>
    dsimp only at h
    cases hb : parseAbs b with
    | none =>
      rw [hb] at h
      exact absurd h (by simp)
    | some bu =>
      rw [hb] at h
      dsimp only at h
      cases hl : parseAbs loc with
      | some v =>
        rw [hl] at h
        dsimp only at h
        injection h with h2
        subst h2
        exact parseAbs_canon _ _ hl
      | none =>
        rw [hl] at h
        dsimp only at h
        exact resolveRel_canon _ _ _ (parseAbs_canon _ _ hb) h

theorem qOk_of_unres (c : Char) (h : isUnresC c = true) :
    (!(c == '#' || c == '&' || c == '=')) = true := by
  by_cases h1 : c = '#'
  · subst h1
    exact absurd h (by decide)
  · by_cases h2 : c = '&'
    · subst h2
      exact absurd h (by decide)
    · by_cases h3 : c = '='
      · subst h3
        exact absurd h (by decide)
      · simp [h1, h2, h3]

theorem qOk_of_high (c : Char) (h : 128 ≤ c.toNat) :
    (!(c == '#' || c == '&' || c == '=')) = true := by
  have h1 : c ≠ '#' := char_ne_of_toNat_ne c '#' (by rw [show ('#').toNat = 35 from rfl]; omega)
  have h2 : c ≠ '&' := char_ne_of_toNat_ne c '&' (by rw [show ('&').toNat = 38 from rfl]; omega)
  have h3 : c ≠ '=' := char_ne_of_toNat_ne c '=' (by rw [show ('=').toNat = 61 from rfl]; omega)
  simp [h1, h2, h3]

theorem qOk_hexDigC (n : Nat) (h : n < 16) :
    (!(hexDigC n == '#' || hexDigC n == '&' || hexDigC n == '=')) = true := by
  interval_cases n <;> decide

theorem hexVal_hexDigC (n : Nat) (h : n < 16) : hexVal (hexDigC n) = some n := by
  interval_cases n <;> decide

theorem encode_all_qOk (s : Str) :
    (encodeURIComponent s).all (fun c => !(c == '#' || c == '&' || c == '=')) = true := by
  induction s with
  | nil => rfl
  | cons c rest ih =>
    unfold encodeURIComponent
    by_cases hu : isUnresC c = true
    · rw [if_pos hu]
      simp only [List.all_cons]
      rw [qOk_of_unres c hu, ih]
      rfl
    · rw [if_neg hu]
      by_cases hlt : c.toNat < 128
      · rw [if_pos hlt]
        simp only [List.all_cons]
        rw [qOk_hexDigC (c.toNat / 16) (by omega), qOk_hexDigC (c.toNat % 16) (by omega), ih]
        decide
      · rw [if_neg hlt]
        simp only [List.all_cons]
        rw [qOk_of_high c (by omega), ih]
        rfl

theorem pctDecodeGo_encode (s : Str) : ∀ fuel, (encodeURIComponent s).length ≤ fuel →
    pctDecodeGo fuel (encodeURIComponent s) = s := by
  induction s with
  | nil =>
    intro fuel _
    cases fuel <;> rfl
  | cons c rest ih =>
    intro fuel hf
    unfold encodeURIComponent at hf ⊢
    by_cases hu : isUnresC c = true
    · rw [if_pos hu] at hf ⊢
      cases fuel with
      | zero =>
        simp only [List.length_cons] at hf
        omega
      | succ f =>
        have hpc : ¬(c = '%') := by
          intro h0
          subst h0
          exact absurd hu (by decide)
        have hplus : ¬(c = '+') := by
          intro h0
          subst h0
          exact absurd hu (by decide)
        unfold pctDecodeGo
        rw [if_neg hpc, if_neg hplus]
        simp only [List.length_cons] at hf
        rw [ih f (by omega)]
    · rw [if_neg hu] at hf ⊢
      by_cases hlt : c.toNat < 128
      · rw [if_pos hlt] at hf ⊢
        cases fuel with
        | zero =>
          simp only [List.length_cons] at hf
          omega
        | succ f =>
          unfold pctDecodeGo
          rw [if_pos rfl]
          dsimp only
          rw [hexVal_hexDigC (c.toNat / 16) (by omega), hexVal_hexDigC (c.toNat % 16) (by omega)]
          dsimp only
          rw [Nat.div_add_mod c.toNat 16, Char.ofNat_toNat]
          simp only [List.length_cons] at hf
          rw [ih f (by omega)]
      · rw [if_neg hlt] at hf ⊢
        cases fuel with
        | zero =>
          simp only [List.length_cons] at hf
          omega
        | succ f =>
          have hpc : ¬(c = '%') :=
            char_ne_of_toNat_ne c '%' (by rw [show ('%').toNat = 37 from rfl]; omega)
          have hplus : ¬(c = '+') :=
            char_ne_of_toNat_ne c '+' (by rw [show ('+').toNat = 43 from rfl]; omega)
          unfold pctDecodeGo
          rw [if_neg hpc, if_neg hplus]
          simp only [List.length_cons] at hf
          rw [ih f (by omega)]

theorem pctDecodePlus_encode (s : Str) :
    pctDecodePlus (encodeURIComponent s) = s := by
  unfold pctDecodePlus
  exact pctDecodeGo_encode s _ le_rfl

theorem getQueryParam_proxy_url (s : Str) :
    getQueryParam (chars "url") (chars "/proxy?url=" ++ encodeURIComponent s) = some s := by
  have hqok := encode_all_qOk s
  have hnohash : (encodeURIComponent s).all (fun c => !(c == '#')) = true := by
    rw [List.all_eq_true] at hqok ⊢
    intro x hx
    have h2 := hqok x hx
    simp only [Bool.not_eq_true', Bool.or_eq_false_iff] at h2
    simp only [Bool.not_eq_true']
    exact h2.1.1
  have hq : queryOf (chars "/proxy?url=" ++ encodeURIComponent s) =
      chars "url=" ++ encodeURIComponent s := by
    unfold queryOf
    rw [tw_all_append _ _ _ (by decide), tw_self _ _ hnohash]
    rfl
  have hsplit : (chars "url=" ++ encodeURIComponent s).splitOn '&' =
      [chars "url=" ++ encodeURIComponent s] := by
    apply List.splitOnP_eq_single
    intro x hx
    rcases List.mem_append.mp hx with hm | hm
    · rw [show chars "url=" = ['u', 'r', 'l', '='] from rfl] at hm
      simp only [List.mem_cons, List.not_mem_nil, or_false] at hm
      rcases hm with h1 | h1 | h1 | h1 <;> (subst h1; decide)
    · have h2 := (List.all_eq_true.mp hqok) x hm
      simp only [Bool.not_eq_true', Bool.or_eq_false_iff] at h2
      simp only [h2.1.2]
      exact Bool.false_ne_true
  unfold getQueryParam
  dsimp only
  rw [hq, hsplit]
  rw [List.find?_cons_of_pos _ (by
    rw [show (chars "url=" ++ encodeURIComponent s).takeWhile (fun c => !(c == '=')) =
      chars "url" from rfl]
    decide)]
  dsimp only
  rw [show ((chars "url=" ++ encodeURIComponent s).dropWhile (fun c => !(c == '='))).drop 1 =
    encodeURIComponent s from rfl]
  rw [pctDecodePlus_encode]

/-- C1: for every upstream response carrying a Location header, the rewrite
resolves it against the stashed upstream origin and, on success, replaces it
with a /proxy link whose url= parameter encodes the resolved absolute URL;
extracting and decoding that parameter from the rewritten Location yields the
absolute URL's serialization, and resolving it against the same upstream
origin reproduces the original Location's absolute form (round-trip); when
resolution fails the header value is left untouched. -/
theorem c1_location_rewrite_roundtrip (base loc : Str) :
    (∀ abs, resolveURL loc (some base) = some abs →
      rewriteLocation (some base) loc = chars "/proxy?url=" ++ encodeURIComponent abs.href ∧
      getQueryParam (chars "url") (rewriteLocation (some base) loc) = some abs.href ∧
      resolveURL abs.href (some base) = some abs) ∧
    (resolveURL loc (some base) = none → rewriteLocation (some base) loc = loc) := by
  constructor
  · intro abs hres
    have hrw : rewriteLocation (some base) loc =
        chars "/proxy?url=" ++ encodeURIComponent abs.href := by
      unfold rewriteLocation
      rw [hres]
    refine ⟨hrw, ?_, ?_⟩
    · rw [hrw]
      exact getQueryParam_proxy_url _
    · have hcanon := resolveURL_canon _ _ _ hres
      have hp := parseAbs_href abs hcanon
      unfold resolveURL at hres ⊢
      dsimp only at hres ⊢
      cases hb : parseAbs base with
      | none =>
        rw [hb] at hres
        exact absurd hres (by simp)
      | some bu =>
        dsimp only
        rw [hp]
  · intro hnone
    unfold rewriteLocation
    rw [hnone]

theorem c1_location_rewrite_roundtrip_witness :
    resolveURL (chars "/x") (some (chars "https://a.io")) =
      some ⟨chars "https", true, chars "a.io", none, chars "/x", [], []⟩ ∧
    rewriteLocation (some (chars "https://a.io")) (chars "/x") =
      chars "/proxy?url=" ++ encodeURIComponent (chars "https://a.io/x") ∧
    getQueryParam (chars "url")
      (rewriteLocation (some (chars "https://a.io")) (chars "/x")) =
      some (chars "https://a.io/x") ∧
    resolveURL (chars "https://a.io/x") (some (chars "https://a.io")) =
      some ⟨chars "https", true, chars "a.io", none, chars "/x", [], []⟩ := by
  have hres : resolveURL (chars "/x") (some (chars "https://a.io")) =
      some ⟨chars "https", true, chars "a.io", none, chars "/x", [], []⟩ := by rfl
  have h := (c1_location_rewrite_roundtrip (chars "https://a.io") (chars "/x")).1 _ hres
  have hhref : (⟨chars "https", true, chars "a.io", none, chars "/x", [], []⟩ : UrlM).href =
      chars "https://a.io/x" := by rfl
  rw [hhref] at h
  exact ⟨hres, h.1, h.2.1, h.2.2⟩

/-- C4 counterexample: the value "mailto:hi" parses as an absolute URL with an
empty host, yet the /proxy handler dispatches to the upstream instead of
answering 400 — the code never requires a nonempty host, contradicting the
claimed "must have a scheme and host" failure condition. -/
theorem c4_counterexample :
    (parseAbs (chars "mailto:hi")).map UrlM.host = some [] ∧
    (proxyHandler none (chars "/proxy?url=mailto:hi") none none).isRespond = false :=
  ⟨rfl, rfl⟩

/-- C4 (amended): target resolution on /proxy answers 400 with the fixed body
when the url query parameter is absent or empty, and when its value does not
parse as an absolute URL at all; in both cases the client response is
independent of the upstream (no upstream contact).  A URL that parses with an
empty host (e.g. mailto:hi) is NOT rejected by the code. -/
theorem c4_target_resolution_amended (al : Option (List Str)) (reqUrl : Str)
    (xf rp : Option Str) (hostH : Str) (upstream : Option UpstreamResponse)
    (hfail : getQueryParam (chars "url") reqUrl = none ∨
      getQueryParam (chars "url") reqUrl = some [] ∨
      ∃ raw, getQueryParam (chars "url") reqUrl = some raw ∧ parseAbs raw = none) :
    proxyHandler al reqUrl xf rp = ProxyOutcome.respond 400 (chars "Missing or invalid ?url=") ∧
    runProxy al reqUrl xf rp hostH upstream =
      ⟨400, [], [], strBytes (chars "Missing or invalid ?url=")⟩ := by
  have hpt : parseTargetFromReq reqUrl = none := by
    unfold parseTargetFromReq
    rcases hfail with h | h | ⟨raw, h1, h2⟩
    · rw [h]
    · rw [h]
      dsimp only
      rw [if_pos rfl]
    · rw [h1]
      dsimp only
      by_cases h0 : raw = []
      · rw [if_pos h0]
      · rw [if_neg h0]
        exact h2
  have hh : proxyHandler al reqUrl xf rp =
      ProxyOutcome.respond 400 (chars "Missing or invalid ?url=") := by
    unfold proxyHandler
    rw [hpt]
  refine ⟨hh, ?_⟩
  unfold runProxy
  rw [hh]

theorem c4_target_resolution_amended_witness :
    proxyHandler none (chars "/proxy?url=%3A%2F") none none =
      ProxyOutcome.respond 400 (chars "Missing or invalid ?url=") ∧
    runProxy none (chars "/proxy?url=%3A%2F") none none [] none =
      ⟨400, [], [], strBytes (chars "Missing or invalid ?url=")⟩ :=
  c4_target_resolution_amended none (chars "/proxy?url=%3A%2F") none none [] none
    (Or.inr (Or.inr ⟨chars ":/", by rfl, by rfl⟩))

/-- C7: requesting /proxy?url=T for any canonical absolute URL T whose host
passes the allowlist, against an upstream answering 200 with body B, yields a
client response with status 200 and body exactly B (byte-identical; the
proxy.web relay of status and body is modelled from the spec, the http-proxy
library not being part of src/). -/
theorem c7_body_passthrough (al : Option (List Str)) (T : UrlM) (hc : canonUrl T)
    (hal : allowedHost al T.host = true) (xf rp : Option Str) (hostH : Str)
    (hdrs : Headers) (B : List Nat) :
    (runProxy al (chars "/proxy?url=" ++ encodeURIComponent T.href) xf rp hostH
        (some ⟨200, hdrs, B⟩)).status = 200 ∧
    (runProxy al (chars "/proxy?url=" ++ encodeURIComponent T.href) xf rp hostH
        (some ⟨200, hdrs, B⟩)).body = B := by
  have hne : T.href ≠ [] := by
    intro h0
    obtain ⟨sc, auth, host, port, path, q, f⟩ := T
    simp [UrlM.href] at h0
  have hpt : parseTargetFromReq (chars "/proxy?url=" ++ encodeURIComponent T.href) = some T := by
    unfold parseTargetFromReq
    rw [getQueryParam_proxy_url]
    dsimp only
    rw [if_neg hne, parseAbs_href T hc]
  have hph : proxyHandler al (chars "/proxy?url=" ++ encodeURIComponent T.href) xf rp =
      ProxyOutcome.dispatch [lastTargetCookie T] (T.pathname ++ T.search ++ T.hash) T.origin
        (computeProto xf rp) := by
    unfold proxyHandler
    rw [hpt]
    dsimp only
    rw [hal, if_neg (by decide)]
  constructor
  · unfold runProxy
    rw [hph]
  · unfold runProxy
    rw [hph]

theorem c7_body_passthrough_witness :
    (runProxy none (chars "/proxy?url=" ++ encodeURIComponent
        (⟨chars "https", true, chars "a.io", none, chars "/", [], []⟩ : UrlM).href)
        none none [] (some ⟨200, [], [72, 105]⟩)).status = 200 ∧
    (runProxy none (chars "/proxy?url=" ++ encodeURIComponent
        (⟨chars "https", true, chars "a.io", none, chars "/", [], []⟩ : UrlM).href)
        none none [] (some ⟨200, [], [72, 105]⟩)).body = [72, 105] :=
  c7_body_passthrough none ⟨chars "https", true, chars "a.io", none, chars "/", [], []⟩
    (parseAbs_canon (chars "https://a.io") _ rfl) rfl none none [] [] [72, 105]

/-- C9: the upgrade handler resolves the target exactly as the HTTP /proxy
handler — it destroys the client socket (no HTTP response) precisely when the
/proxy handler would answer an immediate error response, and on success it
relays the handshake with the path rewritten to the target's
path+query+fragment and the target's origin. -/
theorem c9_upgrade_parity (al : Option (List Str)) (reqUrl : Str) (xf rp : Option Str) :
    (upgradeHandler al reqUrl = WsOutcome.destroy ↔
      (proxyHandler al reqUrl xf rp).isRespond = true) ∧
    (∀ t, parseTargetFromReq reqUrl = some t → allowedHost al t.host = true →
      upgradeHandler al reqUrl = WsOutcome.ws (t.pathname ++ t.search ++ t.hash) t.origin ∧
      proxyHandler al reqUrl xf rp =
        ProxyOutcome.dispatch [lastTargetCookie t] (t.pathname ++ t.search ++ t.hash) t.origin
          (computeProto xf rp)) := by
  constructor
  · unfold upgradeHandler proxyHandler
    cases hpt : parseTargetFromReq reqUrl with
    | none => simp [ProxyOutcome.isRespond]
    | some t =>
      dsimp only
      cases hal : allowedHost al t.host with
      | true => simp [ProxyOutcome.isRespond]
      | false => simp [ProxyOutcome.isRespond]
  · intro t hpt hal
    constructor
    · unfold upgradeHandler
      rw [hpt]
      dsimp only
      rw [hal, if_neg (by decide)]
    · unfold proxyHandler
      rw [hpt]
      dsimp only
      rw [hal, if_neg (by decide)]

theorem c9_upgrade_parity_witness :
    upgradeHandler none (chars "/proxy?url=wss://echo.example/chat") =
      WsOutcome.ws (chars "/chat") (chars "wss://echo.example") ∧
    proxyHandler none (chars "/proxy?url=wss://echo.example/chat") none none =
      ProxyOutcome.dispatch
        [⟨chars "last_target", chars "wss://echo.example", ⟨false, chars "Lax", 1209600000⟩⟩]
        (chars "/chat") (chars "wss://echo.example") (chars "https") := by
  have h := (c9_upgrade_parity none (chars "/proxy?url=wss://echo.example/chat") none none).2
    ⟨chars "wss", true, chars "echo.example", none, chars "/chat", [], []⟩ rfl rfl
  exact ⟨h.1.trans (by rfl), h.2.trans (by rfl)⟩

/-- C10: on every /proxy request whose target resolves and passes the
allowlist, the handler sets its own last_target cookie (value the target's
origin, not HttpOnly, SameSite=Lax, 14-day max-age in milliseconds) before
any upstream contact: the dispatched outcome carries exactly that cookie, the
client response carries it for every upstream behaviour, and in particular it
is still set when the upstream is unreachable and the client receives the
502. -/
theorem c10_cookie_before_upstream (al : Option (List Str)) (reqUrl : Str)
    (xf rp : Option Str) (hostH : Str) (t : UrlM)
    (hpt : parseTargetFromReq reqUrl = some t) (hal : allowedHost al t.host = true) :
    proxyHandler al reqUrl xf rp =
      ProxyOutcome.dispatch [lastTargetCookie t] (t.pathname ++ t.search ++ t.hash) t.origin
        (computeProto xf rp) ∧
    lastTargetCookie t =
      ⟨chars "last_target", t.origin, ⟨false, chars "Lax", 1209600000⟩⟩ ∧
    (∀ upstream, (runProxy al reqUrl xf rp hostH upstream).cookies = [lastTargetCookie t]) ∧
    (runProxy al reqUrl xf rp hostH none).status = 502 := by
  have hph : proxyHandler al reqUrl xf rp =
      ProxyOutcome.dispatch [lastTargetCookie t] (t.pathname ++ t.search ++ t.hash) t.origin
        (computeProto xf rp) := by
    unfold proxyHandler
    rw [hpt]
    dsimp only
    rw [hal, if_neg (by decide)]
  refine ⟨hph, rfl, ?_, ?_⟩
  · intro upstream
    unfold runProxy
    rw [hph]
    cases upstream <;> rfl
  · unfold runProxy
    rw [hph]

theorem c10_cookie_before_upstream_witness :
    (runProxy none (chars "/proxy?url=https://site.io/p") none none [] none).cookies =
      [⟨chars "last_target", chars "https://site.io", ⟨false, chars "Lax", 1209600000⟩⟩] ∧
    (runProxy none (chars "/proxy?url=https://site.io/p") none none [] none).status = 502 := by
  have h := c10_cookie_before_upstream none (chars "/proxy?url=https://site.io/p") none none []
    ⟨chars "https", true, chars "site.io", none, chars "/p", [], []⟩ rfl rfl
  exact ⟨(h.2.2.1 none).trans (by rfl), h.2.2.2⟩
